import Mathlib

/-!
# Verification of the `lasretile` retiling engine

A shallow embedding of `src/main.rs`. Coordinates, which the program stores as
`f64`, are modelled as exact rationals (`ℚ`); all integer casts follow Rust's
saturating `as i32` semantics (truncation toward zero, clamped to the `i32`
range). The `las` codec is external to the repository: its header, reader and
writer are modelled abstractly, with file contents tracked as lists of points
keyed by tile index. `HashMap`/`HashSet` are modelled as association lists with
unique keys / `Finset ℕ`. Reading "up to `LAZ_BUFFER_SIZE` points at a time" is
modelled by an arbitrary batching of each input's point sequence, which
subsumes the fixed-capacity batching of the code.
-/

set_option linter.unusedVariables false

namespace Lasretile

/-! ## Geometry and header data (las types used by the code) -/

/-- Models `las::Vector<f64>`. -/
structure Vector3 where
  x : ℚ
  y : ℚ
  z : ℚ
deriving DecidableEq, Repr

/-- Models `las::Bounds`: axis-aligned min/max corners. -/
structure Bounds where
  min : Vector3
  max : Vector3
deriving DecidableEq, Repr

/-- Models `las::Point`; the engine only ever reads `x` and `y`, everything
else is opaque payload carried along unchanged. -/
structure Point where
  x : ℚ
  y : ℚ
  z : ℚ
deriving DecidableEq, Repr

/-- Models `las::Header`: spatial bounds and point count, plus the remaining
format template data (point formats, scales, ...) collapsed into one opaque
field. -/
structure Header where
  bounds : Bounds
  number_of_points : ℕ
  template : ℕ
deriving DecidableEq, Repr

/-- Modelled from the spec: `las::Header::clear`, the external codec's reset
used when deriving an output header from an input's header ("derives an output
header from the template with point-count/statistics fields cleared"). Point
count and bounds statistics are zeroed; the template data is preserved. -/
def Header.clear (h : Header) : Header :=
  { h with number_of_points := 0, bounds := ⟨⟨0, 0, 0⟩, ⟨0, 0, 0⟩⟩ }

/-- `vector_min` from the source. -/
def vector_min (a b : Vector3) : Vector3 :=
  ⟨Min.min a.x b.x, Min.min a.y b.y, Min.min a.z b.z⟩

/-- `vector_max` from the source. -/
def vector_max (a b : Vector3) : Vector3 :=
  ⟨Max.max a.x b.x, Max.max a.y b.y, Max.max a.z b.z⟩

/-- `bounds_intersect` from the source:
`!(a.min.x > b.max.x || a.max.x < b.min.x || ... || a.max.z < b.min.z)`. -/
def bounds_intersect (a b : Bounds) : Bool :=
  !(decide (a.min.x > b.max.x) || decide (a.max.x < b.min.x)
    || decide (a.min.y > b.max.y) || decide (a.max.y < b.min.y)
    || decide (a.min.z > b.max.z) || decide (a.max.z < b.min.z))

/-! ## The coordinate-to-tile-index mapping

The code computes tile indices as `(p.x / tile_size) as i32`. Rust's
`f64 as i32` cast truncates toward zero and saturates at the `i32` range
bounds; we model it exactly (over exact rationals). -/

def i32_min : ℤ := -(2 ^ 31)

def i32_max : ℤ := 2 ^ 31 - 1

/-- Truncation toward zero of a rational (`q.num.tdiv q.den`; the denominator
of a canonical `ℚ` is positive). -/
def truncQ (q : ℚ) : ℤ := q.num.tdiv q.den

/-- Rust's saturating cast `f64 as i32`: truncate toward zero, clamp to the
`i32` range. -/
def f64_as_i32 (q : ℚ) : ℤ := Max.max i32_min (Min.min i32_max (truncQ q))

/-- `(c / tile_size) as i32` — the code's coordinate-to-index mapping, used
identically by the planner (lines 120-123) and the dispatch loop (lines
170-171). -/
def tileCoord (tile_size c : ℚ) : ℤ := f64_as_i32 (c / tile_size)

/-- The tile a point is assigned to by the code. -/
def tileIndex (tile_size : ℚ) (p : Point) : ℤ × ℤ :=
  (tileCoord tile_size p.x, tileCoord tile_size p.y)

/-- Modelled from the spec's words, for comparison with `tileIndex`: the
floor-based tile index `(floor(x / tile_size), floor(y / tile_size))` that the
spec claims the code computes. -/
def specFloorTileIndex (tile_size : ℚ) (p : Point) : ℤ × ℤ :=
  (⌊p.x / tile_size⌋, ⌊p.y / tile_size⌋)

/-! ## Output tiles and writers -/

/-- An open output writer: the path the file was created at and the header it
was created with. Point appends are tracked separately in `EngineState.files`. -/
structure Writer where
  path : String
  header : Header
deriving DecidableEq, Repr

/-- The output path for a tile: `output_folder.join(format!("tile_{}_{}.laz", tx, ty))`. -/
def tile_path (output_folder : String) (t : ℤ × ℤ) : String :=
  output_folder ++ "/tile_" ++ toString t.1 ++ "_" ++ toString t.2 ++ ".laz"

/-- `OutTile` from the source. -/
structure OutTile where
  /-- the index of this tile -/
  tile_index : ℤ × ℤ
  /-- The input files that contribute to this tile (indices into the scanned
  header list, modelling the `HashSet<usize>`) -/
  input_files : Finset ℕ
  /-- The writer to this file, might be `none` if not opened yet -/
  writer : Option Writer
deriving DecidableEq

/-- `OutTile::get_writer` from the source. Returns the updated tile, the
writer handle, and whether a new backing file was created by this call. -/
def OutTile.get_writer (self : OutTile) (output_folder : String) (header : Header) :
    OutTile × Writer × Bool :=
  match self.writer with
  | none =>
    let new_writer : Writer := ⟨tile_path output_folder self.tile_index, header.clear⟩
    ({ self with writer := some new_writer }, new_writer, true)
  | some w => (self, w, false)

/-! ## Association lists (model of `HashMap<(i32, i32), _>`)

The registry and the set of created files are association lists keyed by tile
index; all operations the code performs keep the keys unique. A `HashMap`
iterates in unspecified order; the list fixes one order, which no claim
depends on. -/

/-- First-match lookup, the model of `HashMap::get`. -/
def lookupA {β : Type} : List ((ℤ × ℤ) × β) → (ℤ × ℤ) → Option β
  | [], _ => none
  | (k, v) :: rest, t => if k = t then some v else lookupA rest t

/-- Replace the value at an existing key, or append a fresh entry. -/
def setA {β : Type} : List ((ℤ × ℤ) × β) → (ℤ × ℤ) → β → List ((ℤ × ℤ) × β)
  | [], t, v => [(t, v)]
  | (k, w) :: rest, t, v =>
    if k = t then (k, v) :: rest else (k, w) :: setA rest t v

/-- Append points to the file of a tile (creating the entry if absent). -/
def appendA : List ((ℤ × ℤ) × List Point) → (ℤ × ℤ) → List Point →
    List ((ℤ × ℤ) × List Point)
  | [], t, ps => [(t, ps)]
  | (k, v) :: rest, t, ps =>
    if k = t then (k, v ++ ps) :: rest else (k, v) :: appendA rest t ps

/-- The keys of an association list. -/
def keysA {β : Type} (l : List ((ℤ × ℤ) × β)) : List (ℤ × ℤ) := l.map Prod.fst

/-! ## Engine state -/

/-- Observable per-tile lifecycle events of a run: a backing file is created
(`opened`), `n` points are appended (`wrote`), the writer is flushed and
dropped when the tile leaves the registry (`closed`). -/
inductive Event where
  | opened (t : ℤ × ℤ)
  | wrote (t : ℤ × ℤ) (n : ℕ)
  | closed (t : ℤ × ℤ)
deriving DecidableEq, Repr

/-- The tile an event belongs to. -/
def Event.tileOf : Event → ℤ × ℤ
  | .opened t => t
  | .wrote t _ => t
  | .closed t => t

/-- The engine's state: the registry `output_files` of still-active tiles, the
contents of every output file created so far (these persist after a tile is
closed), and the event trace. -/
structure EngineState where
  registry : List ((ℤ × ℤ) × OutTile)
  files : List ((ℤ × ℤ) × List Point)
  trace : List Event
deriving DecidableEq

/-- The errors `main` can abort with (each `anyhow` bail point of the model). -/
inductive RunError where
  /-- `context("at least one input file")` -/
  | noInputs
  /-- `ensure!(!overlap_found, "overlapping files found")`, carrying the
  reported conflicting index pairs -/
  | overlappingInputs (pairs : List (ℕ × ℕ))
  /-- `context("tile should exist")` in the dispatch loop -/
  | tileShouldExist (t : ℤ × ℤ)
  /-- `ensure!(output_files.is_empty(), "all output files should be closed")` -/
  | registryNotEmpty
deriving DecidableEq, Repr

/-- An input file as the engine sees it: its scanned header and its point
records, grouped into the batches successive `read_points_into` calls return.
Batch sizes are arbitrary here; the code uses up-to-`LAZ_BUFFER_SIZE` chunks. -/
structure InputFile where
  header : Header
  batches : List (List Point)
deriving DecidableEq, Repr

/-- All points of an input, in reading order. -/
def inputPoints (f : InputFile) : List Point := f.batches.flatten

/-! ## The streaming loop -/

/-- One iteration of the inner dispatch loop (source lines 165-200): split off
the maximal run of leading points that map to the tile of the first point. -/
def splitRunsFuel (tile_size : ℚ) : ℕ → List Point → List ((ℤ × ℤ) × List Point)
  | 0, _ => []
  | _, [] => []
  | fuel + 1, p :: ps =>
    let t := tileIndex tile_size p
    (t, p :: ps.takeWhile (fun q => decide (tileIndex tile_size q = t))) ::
      splitRunsFuel tile_size fuel (ps.dropWhile (fun q => decide (tileIndex tile_size q = t)))

/-- Partition a batch into maximal runs of consecutive points mapping to the
same tile, exactly as the `while i < n` scan of the code does. (The loop
consumes at least one point per iteration, so `batch.length` fuel suffices.) -/
def splitRuns (tile_size : ℚ) (batch : List Point) : List ((ℤ × ℤ) × List Point) :=
  splitRunsFuel tile_size batch.length batch

/-- Dispatch one run: `output_files.get_mut(&(nx, ny)).context("tile should
exist")?.get_writer(...)`, then append every point of the run to the writer. -/
def dispatchRun (output_folder : String) (header : Header) (st : EngineState)
    (t : ℤ × ℤ) (run : List Point) : Except (RunError × EngineState) EngineState :=
  match lookupA st.registry t with
  | none => .error (.tileShouldExist t, st)
  | some tile =>
    let r := tile.get_writer output_folder header
    .ok { registry := setA st.registry t r.1,
          files := if r.2.2 then setA st.files t run else appendA st.files t run,
          trace := st.trace ++ (if r.2.2 then [Event.opened t] else [])
                     ++ [Event.wrote t run.length] }

/-- Dispatch the runs of one batch in order. -/
def dispatchRuns (output_folder : String) (header : Header) :
    List ((ℤ × ℤ) × List Point) → EngineState → Except (RunError × EngineState) EngineState
  | [], st => .ok st
  | (t, run) :: rest, st =>
    match dispatchRun output_folder header st t run with
    | .error e => .error e
    | .ok st2 => dispatchRuns output_folder header rest st2

/-- The batch loop of one input (`loop { read_points_into; ... }`). -/
def processBatches (tile_size : ℚ) (output_folder : String) (header : Header) :
    List (List Point) → EngineState → Except (RunError × EngineState) EngineState
  | [], st => .ok st
  | batch :: rest, st =>
    match dispatchRuns output_folder header (splitRuns tile_size batch) st with
    | .error e => .error e
    | .ok st2 => processBatches tile_size output_folder header rest st2

/-- The body of `output_files.retain(...)` applied entry by entry: remove the
finished input index from every tile's contributor set and drop entries whose
set became empty, emitting a `closed` event for each dropped tile (dropping an
`OutTile` closes its writer). Returns the kept entries and the close events. -/
def retireAux (i : ℕ) : List ((ℤ × ℤ) × OutTile) →
    List ((ℤ × ℤ) × OutTile) × List Event
  | [] => ([], [])
  | (t, tile) :: rest =>
    let tile2 : OutTile := { tile with input_files := tile.input_files.erase i }
    let r := retireAux i rest
    if tile2.input_files = ∅ then (r.1, Event.closed t :: r.2)
    else ((t, tile2) :: r.1, r.2)

/-- Retire input `i` from the registry (source lines 206-212). -/
def retire (i : ℕ) (st : EngineState) : EngineState :=
  let r := retireAux i st.registry
  { st with registry := r.1, trace := st.trace ++ r.2 }

/-- The outer loop over input files (`for (i_file, (path, header)) in
headers.iter().enumerate()`), starting at index `i`. -/
def processFrom (tile_size : ℚ) (output_folder : String) :
    ℕ → List InputFile → EngineState → Except (RunError × EngineState) EngineState
  | _, [], st => .ok st
  | i, f :: rest, st =>
    match processBatches tile_size output_folder f.header f.batches st with
    | .error e => .error e
    | .ok st2 => processFrom tile_size output_folder (i + 1) rest (retire i st2)

/-! ## Planning -/

/-- `n` consecutive integers starting at `lo`. -/
def intRangeAux (lo : ℤ) : ℕ → List ℤ
  | 0 => []
  | n + 1 => lo :: intRangeAux (lo + 1) n

/-- The integers of the inclusive Rust range `lo..=hi`. -/
def intRange (lo hi : ℤ) : List ℤ := intRangeAux lo (hi + 1 - lo).toNat

/-- The tile indices the planner visits for one input: the product of the
inclusive ranges `min_x..=max_x` and `min_y..=max_y` (source lines 120-126). -/
def planTiles (tile_size : ℚ) (b : Bounds) : List (ℤ × ℤ) :=
  let min_x := tileCoord tile_size b.min.x
  let max_x := tileCoord tile_size b.max.x
  let min_y := tileCoord tile_size b.min.y
  let max_y := tileCoord tile_size b.max.y
  ((intRange min_x max_x).map (fun tx =>
    (intRange min_y max_y).map (fun ty => (tx, ty)))).flatten

/-- `output_files.entry((tx, ty)).or_insert_with(...)` followed by
`tile.input_files.insert(i)`. -/
def registerTile (i : ℕ) (reg : List ((ℤ × ℤ) × OutTile)) (t : ℤ × ℤ) :
    List ((ℤ × ℤ) × OutTile) :=
  match lookupA reg t with
  | some tile => setA reg t { tile with input_files := insert i tile.input_files }
  | none => reg ++ [(t, ⟨t, {i}, none⟩)]

/-- Register input `i` with every tile its bounds touch. -/
def planInput (tile_size : ℚ) (i : ℕ) (b : Bounds) (reg : List ((ℤ × ℤ) × OutTile)) :
    List ((ℤ × ℤ) × OutTile) :=
  (planTiles tile_size b).foldl (registerTile i) reg

/-- The planning loop over all inputs (`for (i, (_, header)) in
headers.iter().enumerate()`), starting at index `i`. -/
def planFrom (tile_size : ℚ) : ℕ → List Header → List ((ℤ × ℤ) × OutTile) →
    List ((ℤ × ℤ) × OutTile)
  | _, [], reg => reg
  | i, h :: rest, reg => planFrom tile_size (i + 1) rest (planInput tile_size i h.bounds reg)

/-- The full plan: the initial `output_files` map (source lines 115-135). -/
def plan (tile_size : ℚ) (headers : List Header) : List ((ℤ × ℤ) × OutTile) :=
  planFrom tile_size 0 headers []

/-! ## Overlap validation -/

/-- All ordered index pairs `(i, j)` with `i, j < n`, in the nested-loop order
of the code. -/
def allPairs (n : ℕ) : List (ℕ × ℕ) :=
  ((List.range n).map (fun i => (List.range n).map (fun j => (i, j)))).flatten

/-- Whether the validation loop reports the pair `ij`: distinct indices whose
headers' bounds intersect. -/
def overlapAt (headers : List Header) (ij : ℕ × ℕ) : Bool :=
  match headers[ij.1]?, headers[ij.2]? with
  | some hi, some hj => decide (ij.1 ≠ ij.2) && bounds_intersect hi.bounds hj.bounds
  | _, _ => false

/-- Every conflicting pair the overlap check prints (source lines 84-100). -/
def overlappingPairs (headers : List Header) : List (ℕ × ℕ) :=
  (allPairs headers.length).filter (overlapAt headers)

/-! ## The whole run -/

/-- The registry the streaming phase starts from. -/
def startState (tile_size : ℚ) (inputs : List InputFile) : EngineState :=
  ⟨plan tile_size (inputs.map (·.header)), [], []⟩

/-- `main` after argument parsing and header scanning: the overall-bounds
reduction (which errors on an empty input list), the overlap validation, the
planning phase, the streaming loop, and the final emptiness check. An error
carries the engine state at the moment of failure. -/
def runMain (tile_size : ℚ) (output_folder : String) (inputs : List InputFile) :
    Except (RunError × EngineState) EngineState :=
  let headers := inputs.map (·.header)
  if headers = [] then .error (.noInputs, ⟨[], [], []⟩)
  else if overlappingPairs headers = [] then
    match processFrom tile_size output_folder 0 inputs (startState tile_size inputs) with
    | .error e => .error e
    | .ok st => if st.registry = [] then .ok st else .error (.registryNotEmpty, st)
  else .error (.overlappingInputs (overlappingPairs headers), ⟨[], [], []⟩)

/-- The state a run ends in, whether it succeeds or aborts. -/
def finalState : Except (RunError × EngineState) EngineState → EngineState
  | .ok st => st
  | .error e => e.2

/-! ## Spec-side vocabulary used by the theorems -/

/-- The planner's inclusive tile rectangle test for one input's bounds. -/
def inRectB (tile_size : ℚ) (b : Bounds) (t : ℤ × ℤ) : Bool :=
  decide (tileCoord tile_size b.min.x ≤ t.1) && decide (t.1 ≤ tileCoord tile_size b.max.x)
    && decide (tileCoord tile_size b.min.y ≤ t.2) && decide (t.2 ≤ tileCoord tile_size b.max.y)

/-- The input indices (counted from `i`) whose bounds rectangle covers tile
`t`. -/
def plannedSetFrom (tile_size : ℚ) : ℕ → List Header → (ℤ × ℤ) → Finset ℕ
  | _, [], _ => ∅
  | i, h :: rest, t =>
    (if inRectB tile_size h.bounds t then {i} else ∅) ∪
      plannedSetFrom tile_size (i + 1) rest t

/-- The contributor set the plan assigns to tile `t`. -/
def plannedSet (tile_size : ℚ) (headers : List Header) (t : ℤ × ℤ) : Finset ℕ :=
  plannedSetFrom tile_size 0 headers t

/-- All points of all inputs, in processing order. -/
def allPoints (inputs : List InputFile) : List Point :=
  (inputs.map inputPoints).flatten

/-- The points of a list that the code maps to tile `t`. -/
def ptsAt (tile_size : ℚ) (l : List Point) (t : ℤ × ℤ) : List Point :=
  l.filter (fun p => decide (tileIndex tile_size p = t))

/-- A point lies inside a header's x/y bounds (the z coordinate is not tiled). -/
def pointInBounds (b : Bounds) (p : Point) : Bool :=
  decide (b.min.x ≤ p.x) && decide (p.x ≤ b.max.x)
    && decide (b.min.y ≤ p.y) && decide (p.y ≤ b.max.y)

/-- Every point of every input lies within its file's header bounds (the
honesty guarantee a las header gives). -/
def InBounds (inputs : List InputFile) : Prop :=
  ∀ f ∈ inputs, ∀ p ∈ inputPoints f, pointInBounds f.header.bounds p = true

deriving instance DecidableEq for Except

instance (inputs : List InputFile) : Decidable (InBounds inputs) :=
  inferInstanceAs (Decidable
    (∀ f ∈ inputs, ∀ p ∈ inputPoints f, pointInBounds f.header.bounds p = true))

/-- The content of the output file of tile `t` (empty if never created). -/
def fileContent (st : EngineState) (t : ℤ × ℤ) : List Point :=
  (lookupA st.files t).getD []

/-- Total number of points sitting in output files. -/
def filesTotal (st : EngineState) : ℕ :=
  (st.files.map (fun e => e.2.length)).sum

/-- Number of `opened t` events in a trace. -/
def openCount (t : ℤ × ℤ) (tr : List Event) : ℕ := tr.count (Event.opened t)

/-- Number of `closed t` events in a trace. -/
def closeCount (t : ℤ × ℤ) (tr : List Event) : ℕ := tr.count (Event.closed t)

/-- The subtrace of events belonging to tile `t`. -/
def eventsFor (t : ℤ × ℤ) (tr : List Event) : List Event :=
  tr.filter (fun e => decide (e.tileOf = t))

/-! ## Invariant structures and sample data -/

/-- The tile entry `registerTile` produces at the visited key: add `i` to an
existing contributor set, or create a fresh singleton entry. -/
def bump (i : ℕ) (t : ℤ × ℤ) : Option OutTile → OutTile
  | some tile => { tile with input_files := insert i tile.input_files }
  | none => ⟨t, {i}, none⟩

/-- The characterization of the engine state during the run: after dispatching
the point list `pts` and fully retiring the first `k` inputs, every registry
entry carries exactly the still-active planned contributors of its tile, all
and only the tiles with active contributors are present, and each created
file holds exactly the dispatched points of its tile. -/
structure MInv (ts : ℚ) (headers : List Header) (pts : List Point) (k : ℕ)
    (st : EngineState) : Prop where
  nodupReg : (keysA st.registry).Nodup
  regSome : ∀ t tile, lookupA st.registry t = some tile →
    tile.tile_index = t ∧
    tile.input_files = plannedSet ts headers t \ Finset.range k ∧
    tile.input_files ≠ ∅ ∧
    (tile.writer.isSome = true ↔ ptsAt ts pts t ≠ [])
  regCover : ∀ t, (plannedSet ts headers t \ Finset.range k) ≠ ∅ →
    (lookupA st.registry t).isSome = true
  filesChar : ∀ t, lookupA st.files t =
    if ptsAt ts pts t = [] then none else some (ptsAt ts pts t)
  total : filesTotal st = pts.length

/-- Every registry entry has a nonempty contributor set contained in the
half-open index interval `[lo, hi)`. -/
def RegOK (lo hi : ℕ) (st : EngineState) : Prop :=
  ∀ e ∈ st.registry, e.2.input_files ≠ ∅ ∧ ∀ j ∈ e.2.input_files, lo ≤ j ∧ j < hi

/-- The trace invariant every reachable engine state satisfies: a registered
tile was never closed and has exactly one `opened` event iff its writer is
open; an unregistered tile either has no events at all, or its events end in
its single `closed` event after at most one `opened`. -/
structure Inv9 (st : EngineState) : Prop where
  nodup : (keysA st.registry).Nodup
  present : ∀ t tile, lookupA st.registry t = some tile →
    st.trace.count (Event.closed t) = 0 ∧
    st.trace.count (Event.opened t) =
      (match tile.writer with | some _ => 1 | none => 0)
  absent : ∀ t, lookupA st.registry t = none →
    eventsFor t st.trace = [] ∨
    ∃ u, eventsFor t st.trace = u ++ [Event.closed t] ∧
      u.count (Event.closed t) = 0 ∧ u.count (Event.opened t) ≤ 1

/-- Conservation invariant: registry keys are unique and a tile whose writer
is closed has no backing file yet. -/
structure CInv (st : EngineState) : Prop where
  nodup : (keysA st.registry).Nodup
  wfiles : ∀ t tile, lookupA st.registry t = some tile → tile.writer = none →
    lookupA st.files t = none

/-! ## Concrete sample runs used by witnesses and counterexamples -/

/-- One input, two batches, points in tiles `(0,0)` and `(1,0)` (tile size 10). -/
def c1WitnessInput : InputFile := ⟨⟨⟨⟨0, 0, 0⟩, ⟨15, 5, 0⟩⟩, 2, 0⟩, [[⟨2, 3, 0⟩], [⟨12, 3, 0⟩]]⟩

/-- One input consisting of the single point `(-5, 3, 0)`. -/
def c1CexInput : InputFile := ⟨⟨⟨⟨-5, 3, 0⟩, ⟨-5, 3, 0⟩⟩, 1, 0⟩, [[⟨-5, 3, 0⟩]]⟩

/-- An input covering tile `(0,0)` only. -/
def c4InputA : InputFile := ⟨⟨⟨⟨0, 0, 0⟩, ⟨5, 5, 0⟩⟩, 1, 0⟩, [[⟨2, 3, 0⟩]]⟩

/-- An input covering tile `(2,2)` only. -/
def c4InputB : InputFile := ⟨⟨⟨⟨20, 20, 0⟩, ⟨25, 25, 0⟩⟩, 1, 0⟩, [[⟨22, 23, 0⟩]]⟩

/-- The engine state right after the first input's batches in the
`[c4InputA, c4InputB]` run, before `retain` runs for input `0`. -/
def c4MidState : EngineState :=
  ⟨[((0, 0), ⟨(0, 0), {0}, some ⟨"out/tile_0_0.laz", ⟨⟨⟨0, 0, 0⟩, ⟨0, 0, 0⟩⟩, 0, 0⟩⟩⟩),
    ((2, 2), ⟨(2, 2), {1}, none⟩)],
   [((0, 0), [⟨2, 3, 0⟩])],
   [Event.opened (0, 0), Event.wrote (0, 0) 1]⟩

/-- The final state of the `[c4InputA, c4InputB]` run. -/
def c4FinalState : EngineState :=
  ⟨[],
   [((0, 0), [⟨2, 3, 0⟩]), ((2, 2), [⟨22, 23, 0⟩])],
   [Event.opened (0, 0), Event.wrote (0, 0) 1, Event.closed (0, 0),
    Event.opened (2, 2), Event.wrote (2, 2) 1, Event.closed (2, 2)]⟩

/-- A minimal single-input run. -/
def sampleInput : InputFile := ⟨⟨⟨⟨0, 0, 0⟩, ⟨5, 5, 0⟩⟩, 1, 0⟩, [[⟨2, 3, 0⟩]]⟩

/-- The final state of the `[sampleInput]` run. -/
def sampleFinal : EngineState :=
  ⟨[], [((0, 0), [⟨2, 3, 0⟩])],
   [Event.opened (0, 0), Event.wrote (0, 0) 1, Event.closed (0, 0)]⟩

/-- Two inputs whose bounds overlap (they share the square `[4,5]²`). -/
def c6InputA : InputFile := ⟨⟨⟨⟨0, 0, 0⟩, ⟨5, 5, 0⟩⟩, 1, 0⟩, [[⟨2, 3, 0⟩]]⟩

/-- See `c6InputA`. -/
def c6InputB : InputFile := ⟨⟨⟨⟨4, 4, 0⟩, ⟨9, 9, 0⟩⟩, 1, 0⟩, [[⟨6, 6, 0⟩]]⟩

/-- A header with negative minimum bounds. -/
def c7Header : Header := ⟨⟨⟨-5, -5, 0⟩, ⟨5, 5, 0⟩⟩, 1, 0⟩

/-- A sample header template. -/
def c8SampleHeader : Header := ⟨⟨⟨0, 0, 0⟩, ⟨1, 1, 1⟩⟩, 5, 9⟩

/-- A sample open writer. -/
def c8SampleWriter : Writer := ⟨"w", c8SampleHeader⟩

/-- A bounding box is well-formed when `min ≤ max` on every axis. -/
def boundsWF (b : Bounds) : Prop :=
  b.min.x ≤ b.max.x ∧ b.min.y ≤ b.max.y ∧ b.min.z ≤ b.max.z

/-! ## Lemmas: the coordinate-to-index mapping -/

lemma truncQ_of_nonneg {q : ℚ} (h : 0 ≤ q) : truncQ q = ⌊q⌋ := by
  rw [truncQ, Rat.floor_def,
    Int.tdiv_eq_ediv (Rat.num_nonneg.mpr h) (Int.natCast_nonneg q.den)]

lemma truncQ_neg (q : ℚ) : truncQ (-q) = -truncQ q := by
  rw [truncQ, truncQ, Rat.num_neg_eq_neg_num, Rat.den_neg_eq_den, Int.neg_tdiv]

lemma truncQ_of_neg {q : ℚ} (h : q < 0) : truncQ q = ⌈q⌉ := by
  have h2 : (0 : ℚ) ≤ -q := by linarith
  have h3 := truncQ_of_nonneg h2
  rw [truncQ_neg, Int.floor_neg] at h3
  omega

/-- Truncation toward zero is monotone. -/
lemma truncQ_mono {a b : ℚ} (h : a ≤ b) : truncQ a ≤ truncQ b := by
  rcases le_or_lt 0 a with ha | ha
  · rw [truncQ_of_nonneg ha, truncQ_of_nonneg (le_trans ha h)]
    exact Int.floor_le_floor h
  · rcases le_or_lt 0 b with hb | hb
    · rw [truncQ_of_neg ha, truncQ_of_nonneg hb]
      calc ⌈a⌉ ≤ 0 := Int.ceil_le.mpr (by exact_mod_cast ha.le)
        _ ≤ ⌊b⌋ := Int.floor_nonneg.mpr hb
    · rw [truncQ_of_neg ha, truncQ_of_neg hb]
      exact Int.ceil_le_ceil h

/-- The saturating cast is monotone. -/
lemma f64_as_i32_mono {a b : ℚ} (h : a ≤ b) : f64_as_i32 a ≤ f64_as_i32 b :=
  max_le_max le_rfl (min_le_min le_rfl (truncQ_mono h))

/-- For positive tile size the coordinate-to-index mapping is monotone. -/
lemma tileCoord_mono {ts a b : ℚ} (hts : 0 < ts) (h : a ≤ b) :
    tileCoord ts a ≤ tileCoord ts b :=
  f64_as_i32_mono (by gcongr)

/-- A point inside a header's bounds maps to a tile inside the planner's
rectangle for those bounds: the planner and the dispatch loop use the same
monotone mapping. -/
lemma inRectB_of_pointInBounds {ts : ℚ} (hts : 0 < ts) {b : Bounds} {p : Point}
    (h : pointInBounds b p = true) : inRectB ts b (tileIndex ts p) = true := by
  simp only [pointInBounds, Bool.and_eq_true, decide_eq_true_eq] at h
  obtain ⟨⟨⟨h1, h2⟩, h3⟩, h4⟩ := h
  simp only [inRectB, tileIndex, Bool.and_eq_true, decide_eq_true_eq]
  exact ⟨⟨⟨tileCoord_mono hts h1, tileCoord_mono hts h2⟩, tileCoord_mono hts h3⟩,
    tileCoord_mono hts h4⟩

/-! ## Lemmas: association lists -/

@[simp] lemma lookupA_nil {β : Type} (t : ℤ × ℤ) :
    lookupA ([] : List ((ℤ × ℤ) × β)) t = none := rfl

@[simp] lemma lookupA_cons {β : Type} (k : ℤ × ℤ) (v : β) (rest : List ((ℤ × ℤ) × β))
    (t : ℤ × ℤ) : lookupA ((k, v) :: rest) t = if k = t then some v else lookupA rest t := rfl

@[simp] lemma setA_nil {β : Type} (t : ℤ × ℤ) (v : β) :
    setA ([] : List ((ℤ × ℤ) × β)) t v = [(t, v)] := rfl

@[simp] lemma setA_cons {β : Type} (k : ℤ × ℤ) (w : β) (rest : List ((ℤ × ℤ) × β))
    (t : ℤ × ℤ) (v : β) :
    setA ((k, w) :: rest) t v =
      if k = t then (k, v) :: rest else (k, w) :: setA rest t v := rfl

@[simp] lemma appendA_nil (t : ℤ × ℤ) (ps : List Point) :
    appendA [] t ps = [(t, ps)] := rfl

@[simp] lemma appendA_cons (k : ℤ × ℤ) (w : List Point) (rest : List ((ℤ × ℤ) × List Point))
    (t : ℤ × ℤ) (ps : List Point) :
    appendA ((k, w) :: rest) t ps =
      if k = t then (k, w ++ ps) :: rest else (k, w) :: appendA rest t ps := rfl

@[simp] lemma keysA_nil {β : Type} : keysA ([] : List ((ℤ × ℤ) × β)) = [] := rfl

@[simp] lemma keysA_cons {β : Type} (k : ℤ × ℤ) (v : β) (rest : List ((ℤ × ℤ) × β)) :
    keysA ((k, v) :: rest) = k :: keysA rest := rfl

lemma lookupA_setA {β : Type} (l : List ((ℤ × ℤ) × β)) (t t' : ℤ × ℤ) (v : β) :
    lookupA (setA l t v) t' = if t = t' then some v else lookupA l t' := by
  induction l with
  | nil =>
    by_cases h : t = t' <;> simp [h]
  | cons e rest ih =>
    obtain ⟨k, w⟩ := e
    by_cases hk : k = t
    · subst hk
      by_cases h : k = t' <;> simp [h]
    · by_cases h : k = t'
      · subst h
        have ht' : ¬ t = k := fun hh => hk hh.symm
        simp [hk, ht']
      · simp [hk, h, ih]

lemma lookupA_appendA (l : List ((ℤ × ℤ) × List Point)) (t t' : ℤ × ℤ) (ps : List Point) :
    lookupA (appendA l t ps) t' =
      if t = t' then some ((lookupA l t).getD [] ++ ps) else lookupA l t' := by
  induction l with
  | nil =>
    by_cases h : t = t' <;> simp [h]
  | cons e rest ih =>
    obtain ⟨k, w⟩ := e
    by_cases hk : k = t
    · subst hk
      by_cases h : k = t' <;> simp [h]
    · by_cases h : k = t'
      · subst h
        have ht' : ¬ t = k := fun hh => hk hh.symm
        simp [hk, ht']
      · simp [hk, h, ih]

lemma lookupA_some_mem {β : Type} {l : List ((ℤ × ℤ) × β)} {t : ℤ × ℤ} {v : β}
    (h : lookupA l t = some v) : (t, v) ∈ l := by
  induction l with
  | nil => simp at h
  | cons e rest ih =>
    obtain ⟨k, w⟩ := e
    by_cases hk : k = t
    · subst hk
      rw [lookupA_cons, if_pos rfl] at h
      obtain rfl := Option.some.inj h
      exact List.mem_cons_self _ _
    · rw [lookupA_cons, if_neg hk] at h
      exact List.mem_cons_of_mem _ (ih h)

lemma lookupA_eq_none_iff {β : Type} {l : List ((ℤ × ℤ) × β)} {t : ℤ × ℤ} :
    lookupA l t = none ↔ t ∉ keysA l := by
  induction l with
  | nil => simp
  | cons e rest ih =>
    obtain ⟨k, w⟩ := e
    by_cases hk : k = t
    · subst hk; simp
    · have ht' : ¬ t = k := fun hh => hk hh.symm
      rw [lookupA_cons, if_neg hk, ih, keysA_cons]
      simp [ht']

lemma mem_lookupA_of_nodup {β : Type} {l : List ((ℤ × ℤ) × β)} {t : ℤ × ℤ} {v : β}
    (hnd : (keysA l).Nodup) (h : (t, v) ∈ l) : lookupA l t = some v := by
  induction l with
  | nil => simp at h
  | cons e rest ih =>
    obtain ⟨k, w⟩ := e
    rw [keysA_cons, List.nodup_cons] at hnd
    rcases List.mem_cons.mp h with h1 | h1
    · obtain ⟨rfl, rfl⟩ := Prod.mk.inj h1
      simp
    · have hk : ¬ k = t := by
        rintro rfl
        exact hnd.1 (List.mem_map.mpr ⟨(k, v), h1, rfl⟩)
      rw [lookupA_cons, if_neg hk]
      exact ih hnd.2 h1

lemma keysA_setA {β : Type} (l : List ((ℤ × ℤ) × β)) (t : ℤ × ℤ) (v : β) :
    keysA (setA l t v) = if t ∈ keysA l then keysA l else keysA l ++ [t] := by
  induction l with
  | nil => simp
  | cons e rest ih =>
    obtain ⟨k, w⟩ := e
    by_cases hk : k = t
    · subst hk
      simp
    · have ht' : ¬ t = k := fun hh => hk hh.symm
      rw [setA_cons, if_neg hk, keysA_cons, keysA_cons, ih]
      by_cases ht : t ∈ keysA rest
      · rw [if_pos ht, if_pos (List.mem_cons_of_mem k ht)]
      · rw [if_neg ht, if_neg (by simp [ht', ht]), List.cons_append]

lemma keysA_appendA (l : List ((ℤ × ℤ) × List Point)) (t : ℤ × ℤ) (ps : List Point) :
    keysA (appendA l t ps) = if t ∈ keysA l then keysA l else keysA l ++ [t] := by
  induction l with
  | nil => simp
  | cons e rest ih =>
    obtain ⟨k, w⟩ := e
    by_cases hk : k = t
    · subst hk
      simp
    · have ht' : ¬ t = k := fun hh => hk hh.symm
      rw [appendA_cons, if_neg hk, keysA_cons, keysA_cons, ih]
      by_cases ht : t ∈ keysA rest
      · rw [if_pos ht, if_pos (List.mem_cons_of_mem k ht)]
      · rw [if_neg ht, if_neg (by simp [ht', ht]), List.cons_append]

lemma nodup_keysA_setA {β : Type} {l : List ((ℤ × ℤ) × β)} {t : ℤ × ℤ} {v : β}
    (hnd : (keysA l).Nodup) : (keysA (setA l t v)).Nodup := by
  rw [keysA_setA]
  by_cases ht : t ∈ keysA l
  · simpa [ht]
  · simp only [if_neg ht]
    simpa [List.nodup_append] using ⟨hnd, ht⟩

lemma nodup_keysA_appendA {l : List ((ℤ × ℤ) × List Point)} {t : ℤ × ℤ} {ps : List Point}
    (hnd : (keysA l).Nodup) : (keysA (appendA l t ps)).Nodup := by
  rw [keysA_appendA]
  by_cases ht : t ∈ keysA l
  · simpa [ht]
  · simp only [if_neg ht]
    simpa [List.nodup_append] using ⟨hnd, ht⟩

/-! ## Lemmas: the planning phase -/

lemma mem_intRangeAux {z lo : ℤ} : ∀ {n : ℕ}, z ∈ intRangeAux lo n ↔ lo ≤ z ∧ z < lo + n := by
  intro n
  induction n generalizing lo with
  | zero => simp [intRangeAux]
  | succ m ih =>
    rw [intRangeAux]
    simp only [List.mem_cons, ih]
    constructor
    · rintro (rfl | ⟨h1, h2⟩) <;> constructor <;> omega
    · rintro ⟨h1, h2⟩
      by_cases hz : z = lo
      · exact Or.inl hz
      · right; constructor <;> omega

lemma mem_intRange {lo hi z : ℤ} : z ∈ intRange lo hi ↔ lo ≤ z ∧ z ≤ hi := by
  rw [intRange, mem_intRangeAux]
  omega

lemma mem_planTiles {ts : ℚ} {b : Bounds} {t : ℤ × ℤ} :
    t ∈ planTiles ts b ↔ inRectB ts b t = true := by
  obtain ⟨tx, ty⟩ := t
  simp only [planTiles, List.mem_flatten, List.mem_map, inRectB, Bool.and_eq_true,
    decide_eq_true_eq]
  constructor
  · rintro ⟨l, ⟨x, hx, rfl⟩, hmem⟩
    obtain ⟨y, hy, heq⟩ := List.mem_map.mp hmem
    obtain ⟨rfl, rfl⟩ := Prod.mk.inj heq.symm
    have hx' := mem_intRange.mp hx
    have hy' := mem_intRange.mp hy
    exact ⟨⟨⟨hx'.1, hx'.2⟩, hy'.1⟩, hy'.2⟩
  · rintro ⟨⟨⟨h1, h2⟩, h3⟩, h4⟩
    exact ⟨(intRange (tileCoord ts b.min.y) (tileCoord ts b.max.y)).map (fun u => (tx, u)),
      ⟨tx, mem_intRange.mpr ⟨h1, h2⟩, rfl⟩,
      List.mem_map.mpr ⟨ty, mem_intRange.mpr ⟨h3, h4⟩, rfl⟩⟩


lemma bump_bump (i : ℕ) (t : ℤ × ℤ) (o : Option OutTile) :
    bump i t (some (bump i t o)) = bump i t o := by
  cases o <;> simp [bump, Finset.insert_idem]

lemma lookupA_registerTile (i : ℕ) (reg : List ((ℤ × ℤ) × OutTile)) (t t' : ℤ × ℤ) :
    lookupA (registerTile i reg t) t' =
      if t = t' then some (bump i t (lookupA reg t)) else lookupA reg t' := by
  unfold registerTile
  cases h : lookupA reg t with
  | some tile =>
    rw [lookupA_setA]
    by_cases ht : t = t' <;> simp [ht, bump, h]
  | none =>
    by_cases ht : t = t'
    · subst ht
      rw [if_pos rfl]
      induction reg with
      | nil => simp [bump]
      | cons e rest ih =>
        obtain ⟨k, w⟩ := e
        by_cases hk : k = t
        · subst hk; simp at h
        · rw [lookupA_cons, if_neg hk] at h
          simp only [List.cons_append, lookupA_cons, if_neg hk]
          exact ih h
    · rw [if_neg ht]
      induction reg with
      | nil => simp [ht]
      | cons e rest ih =>
        obtain ⟨k, w⟩ := e
        by_cases hk : k = t
        · subst hk; simp at h
        · rw [lookupA_cons, if_neg hk] at h
          by_cases hk' : k = t'
          · simp [List.cons_append, hk']
          · simp only [List.cons_append, lookupA_cons, if_neg hk']
            exact ih h

lemma lookupA_foldl_registerTile (i : ℕ) (L : List (ℤ × ℤ))
    (reg : List ((ℤ × ℤ) × OutTile)) (t' : ℤ × ℤ) :
    lookupA (L.foldl (registerTile i) reg) t' =
      if t' ∈ L then some (bump i t' (lookupA reg t')) else lookupA reg t' := by
  induction L generalizing reg with
  | nil => simp
  | cons t0 L ih =>
    rw [List.foldl_cons, ih]
    by_cases h0 : t' = t0
    · subst h0
      rw [if_pos (List.mem_cons_self _ _)]
      by_cases hL : t' ∈ L
      · rw [if_pos hL, lookupA_registerTile, if_pos rfl, bump_bump]
      · rw [if_neg hL, lookupA_registerTile, if_pos rfl]
    · have h0' : ¬ t0 = t' := fun hh => h0 hh.symm
      rw [lookupA_registerTile, if_neg h0']
      by_cases hL : t' ∈ L
      · rw [if_pos hL, if_pos (List.mem_cons_of_mem _ hL)]
      · rw [if_neg hL, if_neg (by simp [h0, hL])]

lemma lookupA_planInput (ts : ℚ) (i : ℕ) (b : Bounds) (reg : List ((ℤ × ℤ) × OutTile))
    (t : ℤ × ℤ) :
    lookupA (planInput ts i b reg) t =
      if inRectB ts b t = true then some (bump i t (lookupA reg t)) else lookupA reg t := by
  unfold planInput
  rw [lookupA_foldl_registerTile]
  by_cases h : inRectB ts b t = true
  · rw [if_pos (mem_planTiles.mpr h), if_pos h]
  · rw [if_neg (fun hm => h (mem_planTiles.mp hm)), if_neg h]

lemma lookupA_planFrom (ts : ℚ) (headers : List Header) (i : ℕ)
    (reg : List ((ℤ × ℤ) × OutTile)) (t : ℤ × ℤ) :
    lookupA (planFrom ts i headers reg) t =
      match lookupA reg t with
      | some tile =>
        some { tile with input_files := tile.input_files ∪ plannedSetFrom ts i headers t }
      | none =>
        if plannedSetFrom ts i headers t = ∅ then none
        else some ⟨t, plannedSetFrom ts i headers t, none⟩ := by
  induction headers generalizing i reg with
  | nil =>
    cases h : lookupA reg t <;> simp [planFrom, plannedSetFrom, h]
  | cons hd rest ih =>
    rw [planFrom, ih, lookupA_planInput]
    by_cases hr : inRectB ts hd.bounds t = true
    · have hps : plannedSetFrom ts i (hd :: rest) t =
          insert i (plannedSetFrom ts (i + 1) rest t) := by
        rw [plannedSetFrom, if_pos hr, ← Finset.insert_eq]
      rw [if_pos hr, hps]
      cases ho : lookupA reg t with
      | some tile =>
        simp only [bump]
        have hset : insert i tile.input_files ∪ plannedSetFrom ts (i + 1) rest t =
            tile.input_files ∪ insert i (plannedSetFrom ts (i + 1) rest t) := by
          ext j
          simp only [Finset.mem_union, Finset.mem_insert]
          tauto
        rw [hset]
      | none =>
        simp only [bump]
        rw [if_neg (Finset.insert_ne_empty _ _)]
        have hset : ({i} : Finset ℕ) ∪ plannedSetFrom ts (i + 1) rest t =
            insert i (plannedSetFrom ts (i + 1) rest t) := (Finset.insert_eq _ _).symm
        rw [hset]
    · have hps : plannedSetFrom ts i (hd :: rest) t = plannedSetFrom ts (i + 1) rest t := by
        rw [plannedSetFrom, if_neg hr, Finset.empty_union]
      rw [if_neg hr, hps]

lemma lookupA_plan (ts : ℚ) (headers : List Header) (t : ℤ × ℤ) :
    lookupA (plan ts headers) t =
      if plannedSet ts headers t = ∅ then none
      else some ⟨t, plannedSet ts headers t, none⟩ := by
  unfold plan plannedSet
  rw [lookupA_planFrom]
  rfl

lemma plannedSetFrom_subset (ts : ℚ) (headers : List Header) (i : ℕ) (t : ℤ × ℤ) :
    plannedSetFrom ts i headers t ⊆ Finset.Ico i (i + headers.length) := by
  induction headers generalizing i with
  | nil => simp [plannedSetFrom]
  | cons hd rest ih =>
    intro j hj
    rw [plannedSetFrom] at hj
    rcases Finset.mem_union.mp hj with hj | hj
    · by_cases hr : inRectB ts hd.bounds t
      · rw [if_pos hr] at hj
        rw [Finset.mem_singleton] at hj
        subst hj
        simp [Finset.mem_Ico]
      · rw [if_neg hr] at hj
        simp at hj
    · have := ih (i + 1) hj
      rw [Finset.mem_Ico] at this ⊢
      simp only [List.length_cons]
      omega

lemma mem_plannedSetFrom_iff (ts : ℚ) (headers : List Header) (i j : ℕ) (t : ℤ × ℤ) :
    j ∈ plannedSetFrom ts i headers t ↔
      i ≤ j ∧ ∃ h, headers[j - i]? = some h ∧ inRectB ts h.bounds t = true := by
  induction headers generalizing i with
  | nil => simp [plannedSetFrom]
  | cons hd rest ih =>
    rw [plannedSetFrom, Finset.mem_union]
    constructor
    · rintro (hj | hj)
      · by_cases hr : inRectB ts hd.bounds t
        · rw [if_pos hr] at hj
          rw [Finset.mem_singleton] at hj
          subst hj
          exact ⟨le_rfl, hd, by simp, hr⟩
        · rw [if_neg hr] at hj
          simp at hj
      · obtain ⟨h1, h, h2, h3⟩ := (ih (i + 1)).mp hj
        refine ⟨by omega, h, ?_, h3⟩
        have : j - i = (j - (i + 1)) + 1 := by omega
        rw [this]
        simpa using h2
    · rintro ⟨h1, h, h2, h3⟩
      by_cases hij : j = i
      · subst hij
        simp only [Nat.sub_self] at h2
        rw [List.getElem?_cons_zero] at h2
        obtain rfl := Option.some.inj h2
        left
        rw [if_pos h3]
        exact Finset.mem_singleton_self _
      · right
        refine (ih (i + 1)).mpr ⟨by omega, h, ?_, h3⟩
        have : j - i = (j - (i + 1)) + 1 := by omega
        rw [this] at h2
        simpa using h2

lemma mem_plannedSet_iff (ts : ℚ) (headers : List Header) (j : ℕ) (t : ℤ × ℤ) :
    j ∈ plannedSet ts headers t ↔
      ∃ h, headers[j]? = some h ∧ inRectB ts h.bounds t = true := by
  unfold plannedSet
  rw [mem_plannedSetFrom_iff]
  simp

lemma plannedSet_subset_range (ts : ℚ) (headers : List Header) (t : ℤ × ℤ) :
    plannedSet ts headers t ⊆ Finset.range headers.length := by
  intro j hj
  have := plannedSetFrom_subset ts headers 0 t hj
  rw [Finset.mem_Ico] at this
  rw [Finset.mem_range]
  omega

lemma nodup_keysA_registerTile {i : ℕ} {reg : List ((ℤ × ℤ) × OutTile)} {t : ℤ × ℤ}
    (hnd : (keysA reg).Nodup) : (keysA (registerTile i reg t)).Nodup := by
  unfold registerTile
  cases h : lookupA reg t with
  | some tile => exact nodup_keysA_setA hnd
  | none =>
    have ht : t ∉ keysA reg := lookupA_eq_none_iff.mp h
    have : keysA (reg ++ [(t, ⟨t, {i}, none⟩)]) = keysA reg ++ [t] := by
      simp [keysA]
    rw [this]
    simpa [List.nodup_append] using ⟨hnd, ht⟩

lemma nodup_keysA_planInput {ts : ℚ} {i : ℕ} {b : Bounds} {reg : List ((ℤ × ℤ) × OutTile)}
    (hnd : (keysA reg).Nodup) : (keysA (planInput ts i b reg)).Nodup := by
  unfold planInput
  generalize planTiles ts b = L
  induction L generalizing reg with
  | nil => simpa
  | cons t0 L ih => exact ih (nodup_keysA_registerTile hnd)

lemma nodup_keysA_planFrom {ts : ℚ} {headers : List Header} {i : ℕ}
    {reg : List ((ℤ × ℤ) × OutTile)} (hnd : (keysA reg).Nodup) :
    (keysA (planFrom ts i headers reg)).Nodup := by
  induction headers generalizing i reg with
  | nil => simpa [planFrom]
  | cons hd rest ih => exact ih (nodup_keysA_planInput hnd)

lemma nodup_keysA_plan (ts : ℚ) (headers : List Header) :
    (keysA (plan ts headers)).Nodup := by
  unfold plan
  exact nodup_keysA_planFrom (by simp)

/-! ## Lemmas: events and retiring an input -/

@[simp] lemma tileOf_opened (t : ℤ × ℤ) : (Event.opened t).tileOf = t := rfl

@[simp] lemma tileOf_wrote (t : ℤ × ℤ) (n : ℕ) : (Event.wrote t n).tileOf = t := rfl

@[simp] lemma tileOf_closed (t : ℤ × ℤ) : (Event.closed t).tileOf = t := rfl

lemma eventsFor_append (t : ℤ × ℤ) (tr tr2 : List Event) :
    eventsFor t (tr ++ tr2) = eventsFor t tr ++ eventsFor t tr2 :=
  List.filter_append _ _

lemma count_closed_eventsFor (t : ℤ × ℤ) (tr : List Event) :
    (eventsFor t tr).count (Event.closed t) = tr.count (Event.closed t) :=
  List.count_filter (by simp)

lemma count_opened_eventsFor (t : ℤ × ℤ) (tr : List Event) :
    (eventsFor t tr).count (Event.opened t) = tr.count (Event.opened t) :=
  List.count_filter (by simp)

@[simp] lemma retireAux_nil (i : ℕ) : retireAux i [] = ([], []) := rfl

lemma retireAux_cons (i : ℕ) (t : ℤ × ℤ) (tile : OutTile)
    (rest : List ((ℤ × ℤ) × OutTile)) :
    retireAux i ((t, tile) :: rest) =
      if tile.input_files.erase i = ∅ then
        ((retireAux i rest).1, Event.closed t :: (retireAux i rest).2)
      else
        ((t, { tile with input_files := tile.input_files.erase i }) :: (retireAux i rest).1,
          (retireAux i rest).2) := rfl

lemma retireAux_keys_sublist (i : ℕ) (l : List ((ℤ × ℤ) × OutTile)) :
    List.Sublist (keysA (retireAux i l).1) (keysA l) := by
  induction l with
  | nil => simp
  | cons e rest ih =>
    obtain ⟨k, tile⟩ := e
    rw [retireAux_cons]
    by_cases he : tile.input_files.erase i = ∅
    · rw [if_pos he]
      exact ih.cons k
    · rw [if_neg he]
      exact ih.cons₂ k

lemma nodup_keysA_retireAux (i : ℕ) {l : List ((ℤ × ℤ) × OutTile)}
    (hnd : (keysA l).Nodup) : (keysA (retireAux i l).1).Nodup :=
  hnd.sublist (retireAux_keys_sublist i l)

lemma lookupA_retireAux (i : ℕ) {l : List ((ℤ × ℤ) × OutTile)}
    (hnd : (keysA l).Nodup) (t : ℤ × ℤ) :
    lookupA (retireAux i l).1 t =
      match lookupA l t with
      | none => none
      | some tile =>
        if tile.input_files.erase i = ∅ then none
        else some { tile with input_files := tile.input_files.erase i } := by
  induction l with
  | nil => rfl
  | cons e rest ih =>
    obtain ⟨k, tile⟩ := e
    rw [keysA_cons, List.nodup_cons] at hnd
    rw [retireAux_cons]
    by_cases hk : k = t
    · subst hk
      rw [lookupA_cons, if_pos rfl]
      by_cases he : tile.input_files.erase i = ∅
      · rw [if_pos he]
        have h1 : lookupA rest k = none := lookupA_eq_none_iff.mpr hnd.1
        rw [ih hnd.2, h1]
        simp [he]
      · rw [if_neg he, lookupA_cons, if_pos rfl]
        simp [he]
    · by_cases he : tile.input_files.erase i = ∅
      · rw [if_pos he, lookupA_cons, if_neg hk]
        exact ih hnd.2
      · rw [if_neg he, lookupA_cons, if_neg hk, lookupA_cons, if_neg hk]
        exact ih hnd.2

lemma eventsFor_retireAux (i : ℕ) {l : List ((ℤ × ℤ) × OutTile)}
    (hnd : (keysA l).Nodup) (t : ℤ × ℤ) :
    eventsFor t (retireAux i l).2 =
      match lookupA l t with
      | none => []
      | some tile =>
        if tile.input_files.erase i = ∅ then [Event.closed t] else [] := by
  induction l with
  | nil => rfl
  | cons e rest ih =>
    obtain ⟨k, tile⟩ := e
    rw [keysA_cons, List.nodup_cons] at hnd
    rw [retireAux_cons]
    by_cases hk : k = t
    · subst hk
      rw [lookupA_cons, if_pos rfl]
      by_cases he : tile.input_files.erase i = ∅
      · rw [if_pos he]
        have h1 : lookupA rest k = none := lookupA_eq_none_iff.mpr hnd.1
        have h2 := ih hnd.2
        rw [h1] at h2
        simp only [eventsFor, List.filter_cons] at h2 ⊢
        simp [he, h2]
      · rw [if_neg he]
        have h1 : lookupA rest k = none := lookupA_eq_none_iff.mpr hnd.1
        have h2 := ih hnd.2
        rw [h1] at h2
        simp [he, h2]
    · by_cases he : tile.input_files.erase i = ∅
      · rw [if_pos he, lookupA_cons, if_neg hk]
        have h2 := ih hnd.2
        simp only [eventsFor, List.filter_cons] at h2 ⊢
        simp [hk, h2]
      · rw [if_neg he, lookupA_cons, if_neg hk]
        exact ih hnd.2

lemma mem_retireAux_fst {i : ℕ} {l : List ((ℤ × ℤ) × OutTile)} {e : (ℤ × ℤ) × OutTile}
    (h : e ∈ (retireAux i l).1) :
    ∃ e', e' ∈ l ∧ e.1 = e'.1 ∧ e.2.input_files = e'.2.input_files.erase i ∧
      e.2.input_files ≠ ∅ := by
  induction l with
  | nil => simp at h
  | cons hd rest ih =>
    obtain ⟨k, tile⟩ := hd
    rw [retireAux_cons] at h
    by_cases he : tile.input_files.erase i = ∅
    · rw [if_pos he] at h
      obtain ⟨e', h1, h2⟩ := ih h
      exact ⟨e', List.mem_cons_of_mem _ h1, h2⟩
    · rw [if_neg he] at h
      rcases List.mem_cons.mp h with h1 | h1
      · subst h1
        exact ⟨(k, tile), List.mem_cons_self _ _, rfl, rfl, he⟩
      · obtain ⟨e', h2, h3⟩ := ih h1
        exact ⟨e', List.mem_cons_of_mem _ h2, h3⟩

lemma mem_setA {β : Type} {l : List ((ℤ × ℤ) × β)} {t : ℤ × ℤ} {v : β}
    {e : (ℤ × ℤ) × β} (h : e ∈ setA l t v) : e = (t, v) ∨ e ∈ l := by
  induction l with
  | nil => exact Or.inl (by simpa using h)
  | cons hd rest ih =>
    obtain ⟨k, w⟩ := hd
    rw [setA_cons] at h
    by_cases hk : k = t
    · subst hk
      rw [if_pos rfl] at h
      rcases List.mem_cons.mp h with h1 | h1
      · exact Or.inl h1
      · exact Or.inr (List.mem_cons_of_mem _ h1)
    · rw [if_neg hk] at h
      rcases List.mem_cons.mp h with h1 | h1
      · exact Or.inr (h1 ▸ List.mem_cons_self _ _)
      · rcases ih h1 with h2 | h2
        · exact Or.inl h2
        · exact Or.inr (List.mem_cons_of_mem _ h2)

/-! ## The streaming-phase invariant -/


lemma ptsAt_append (ts : ℚ) (l1 l2 : List Point) (t : ℤ × ℤ) :
    ptsAt ts (l1 ++ l2) t = ptsAt ts l1 t ++ ptsAt ts l2 t :=
  List.filter_append _ _

lemma ptsAt_nil (ts : ℚ) (t : ℤ × ℤ) : ptsAt ts [] t = [] := rfl

lemma ptsAt_run_self {ts : ℚ} {run : List Point} {t : ℤ × ℤ}
    (h : ∀ p ∈ run, tileIndex ts p = t) : ptsAt ts run t = run :=
  List.filter_eq_self.mpr (fun p hp => by simp [h p hp])

lemma ptsAt_run_other {ts : ℚ} {run : List Point} {t t' : ℤ × ℤ}
    (h : ∀ p ∈ run, tileIndex ts p = t) (hne : ¬ t = t') : ptsAt ts run t' = [] := by
  rw [ptsAt, List.filter_eq_nil_iff]
  intro p hp
  simp [h p hp, hne]

lemma filesLen_setA_none {files : List ((ℤ × ℤ) × List Point)} {t : ℤ × ℤ}
    {ps : List Point} (h : lookupA files t = none) :
    ((setA files t ps).map (fun e => e.2.length)).sum
      = (files.map (fun e => e.2.length)).sum + ps.length := by
  induction files with
  | nil => simp
  | cons e rest ih =>
    obtain ⟨k, v⟩ := e
    by_cases hk : k = t
    · subst hk; simp at h
    · rw [lookupA_cons, if_neg hk] at h
      rw [setA_cons, if_neg hk]
      simp only [List.map_cons, List.sum_cons, ih h]
      omega

lemma filesLen_appendA (files : List ((ℤ × ℤ) × List Point)) (t : ℤ × ℤ)
    (ps : List Point) :
    ((appendA files t ps).map (fun e => e.2.length)).sum
      = (files.map (fun e => e.2.length)).sum + ps.length := by
  induction files with
  | nil => simp
  | cons e rest ih =>
    obtain ⟨k, v⟩ := e
    by_cases hk : k = t
    · subst hk
      rw [appendA_cons, if_pos rfl]
      simp only [List.map_cons, List.sum_cons, List.length_append]
      omega
    · rw [appendA_cons, if_neg hk]
      simp only [List.map_cons, List.sum_cons, ih]
      omega

/-- Dispatching one run to a planned, still-active tile succeeds and extends
the dispatched-points characterization. -/
lemma dispatchRun_spec {ts : ℚ} {headers : List Header} {pts : List Point} {k : ℕ}
    {st : EngineState} (outdir : String) (header : Header) {t : ℤ × ℤ}
    {run : List Point} (hinv : MInv ts headers pts k st)
    (hne : run ≠ [])
    (hmem : ∀ p ∈ run, tileIndex ts p = t)
    (hpl : (plannedSet ts headers t \ Finset.range k) ≠ ∅) :
    ∃ st2, dispatchRun outdir header st t run = .ok st2 ∧
      MInv ts headers (pts ++ run) k st2 := by
  have hsome := hinv.regCover t hpl
  obtain ⟨tile, hlook⟩ : ∃ tile, lookupA st.registry t = some tile := by
    cases h : lookupA st.registry t with
    | none => rw [h] at hsome; simp at hsome
    | some tile => exact ⟨tile, rfl⟩
  obtain ⟨hidx, hset, hsne, hwiff⟩ := hinv.regSome t tile hlook
  cases hw : tile.writer with
  | none =>
    have hpts : ptsAt ts pts t = [] := by
      by_contra hc
      have := hwiff.mpr hc
      rw [hw] at this
      simp at this
    have hfile : lookupA st.files t = none := by
      rw [hinv.filesChar t, if_pos hpts]
    have key : dispatchRun outdir header st t run = .ok
        ⟨setA st.registry t
            { tile with writer := some ⟨tile_path outdir tile.tile_index, header.clear⟩ },
          setA st.files t run,
          (st.trace ++ [Event.opened t]) ++ [Event.wrote t run.length]⟩ := by
      simp [dispatchRun, hlook, OutTile.get_writer, hw]
    refine ⟨_, key, ?_⟩
    constructor
    · exact nodup_keysA_setA hinv.nodupReg
    · intro t' tile' hlk
      rw [lookupA_setA] at hlk
      by_cases ht : t = t'
      · subst ht
        rw [if_pos rfl] at hlk
        obtain rfl := Option.some.inj hlk
        refine ⟨hidx, hset, hsne, ?_⟩
        simp [ptsAt_append, hpts, ptsAt_run_self hmem, hne]
      · rw [if_neg ht] at hlk
        obtain ⟨h1, h2, h3, h4⟩ := hinv.regSome t' tile' hlk
        refine ⟨h1, h2, h3, ?_⟩
        rw [ptsAt_append, ptsAt_run_other hmem ht, List.append_nil]
        exact h4
    · intro t' hpl'
      rw [lookupA_setA]
      by_cases ht : t = t'
      · simp [ht]
      · rw [if_neg ht]
        exact hinv.regCover t' hpl'
    · intro t'
      rw [lookupA_setA]
      by_cases ht : t = t'
      · subst ht
        rw [if_pos rfl, ptsAt_append, hpts, ptsAt_run_self hmem, List.nil_append,
          if_neg hne]
      · rw [if_neg ht, ptsAt_append, ptsAt_run_other hmem ht, List.append_nil]
        exact hinv.filesChar t'
    · show ((setA st.files t run).map (fun e => e.2.length)).sum = _
      rw [filesLen_setA_none hfile]
      have := hinv.total
      rw [filesTotal] at this
      rw [this, List.length_append]
  | some w =>
    have hpts : ¬ ptsAt ts pts t = [] := by
      apply hwiff.mp
      rw [hw]
      rfl
    have key : dispatchRun outdir header st t run = .ok
        ⟨setA st.registry t tile, appendA st.files t run,
          st.trace ++ [Event.wrote t run.length]⟩ := by
      simp [dispatchRun, hlook, OutTile.get_writer, hw]
    refine ⟨_, key, ?_⟩
    constructor
    · exact nodup_keysA_setA hinv.nodupReg
    · intro t' tile' hlk
      rw [lookupA_setA] at hlk
      by_cases ht : t = t'
      · subst ht
        rw [if_pos rfl] at hlk
        obtain rfl := Option.some.inj hlk
        refine ⟨hidx, hset, hsne, ?_⟩
        rw [hw]
        simp only [Option.isSome_some, true_iff]
        rw [ptsAt_append, ptsAt_run_self hmem]
        simp [hne]
      · rw [if_neg ht] at hlk
        obtain ⟨h1, h2, h3, h4⟩ := hinv.regSome t' tile' hlk
        refine ⟨h1, h2, h3, ?_⟩
        rw [ptsAt_append, ptsAt_run_other hmem ht, List.append_nil]
        exact h4
    · intro t' hpl'
      rw [lookupA_setA]
      by_cases ht : t = t'
      · simp [ht]
      · rw [if_neg ht]
        exact hinv.regCover t' hpl'
    · intro t'
      rw [lookupA_appendA]
      by_cases ht : t = t'
      · subst ht
        rw [if_pos rfl, hinv.filesChar t, if_neg hpts]
        rw [ptsAt_append, ptsAt_run_self hmem]
        rw [if_neg (by simp [hpts])]
        rfl
      · rw [if_neg ht, ptsAt_append, ptsAt_run_other hmem ht, List.append_nil]
        exact hinv.filesChar t'
    · show ((appendA st.files t run).map (fun e => e.2.length)).sum = _
      rw [filesLen_appendA]
      have := hinv.total
      rw [filesTotal] at this
      rw [this, List.length_append]

/-! ## Lemmas: run splitting and the batch loop -/

lemma splitRunsFuel_flatten (ts : ℚ) :
    ∀ (fuel : ℕ) (Q : List Point), Q.length ≤ fuel →
      ((splitRunsFuel ts fuel Q).map Prod.snd).flatten = Q := by
  intro fuel
  induction fuel with
  | zero =>
    intro Q hQ
    rw [Nat.le_zero, List.length_eq_zero] at hQ
    subst hQ
    rfl
  | succ m ih =>
    intro Q hQ
    cases Q with
    | nil => rfl
    | cons p ps =>
      rw [splitRunsFuel]
      simp only [List.map_cons, List.flatten_cons]
      have hlen : (List.dropWhile (fun q => decide (tileIndex ts q = tileIndex ts p))
          ps).length ≤ m := by
        have hsub : List.Sublist (List.dropWhile
            (fun q => decide (tileIndex ts q = tileIndex ts p)) ps) ps :=
          List.dropWhile_sublist _
        have h1 := hsub.length_le
        simp only [List.length_cons] at hQ
        omega
      rw [ih _ hlen, List.cons_append, List.takeWhile_append_dropWhile]

lemma splitRunsFuel_runs (ts : ℚ) :
    ∀ (fuel : ℕ) (Q : List Point) (e : (ℤ × ℤ) × List Point),
      e ∈ splitRunsFuel ts fuel Q →
      e.2 ≠ [] ∧ (∀ p ∈ e.2, tileIndex ts p = e.1) ∧ (∀ p ∈ e.2, p ∈ Q) := by
  intro fuel
  induction fuel with
  | zero =>
    intro Q e h
    simp [splitRunsFuel] at h
  | succ m ih =>
    intro Q e h
    cases Q with
    | nil => simp [splitRunsFuel] at h
    | cons p ps =>
      rw [splitRunsFuel] at h
      rcases List.mem_cons.mp h with h1 | h1
      · subst h1
        refine ⟨by simp, ?_, ?_⟩
        · intro q hq
          rcases List.mem_cons.mp hq with rfl | hq2
          · rfl
          · have := List.mem_takeWhile_imp hq2
            simpa using this
        · intro q hq
          rcases List.mem_cons.mp hq with rfl | hq2
          · exact List.mem_cons_self _ _
          · exact List.mem_cons_of_mem _
              ((List.takeWhile_sublist _).subset hq2)
      · obtain ⟨hne2, htile2, hsub2⟩ := ih _ e h1
        refine ⟨hne2, htile2, ?_⟩
        intro q hq
        exact List.mem_cons_of_mem _
          ((List.dropWhile_sublist _).subset (hsub2 q hq))

lemma splitRuns_flatten (ts : ℚ) (Q : List Point) :
    ((splitRuns ts Q).map Prod.snd).flatten = Q :=
  splitRunsFuel_flatten ts Q.length Q le_rfl

lemma splitRuns_runs (ts : ℚ) (Q : List Point) (e : (ℤ × ℤ) × List Point)
    (h : e ∈ splitRuns ts Q) :
    e.2 ≠ [] ∧ (∀ p ∈ e.2, tileIndex ts p = e.1) ∧ (∀ p ∈ e.2, p ∈ Q) :=
  splitRunsFuel_runs ts Q.length Q e h

lemma dispatchRuns_spec (outdir : String) (header : Header) {ts : ℚ}
    {headers : List Header} {k : ℕ} :
    ∀ (R : List ((ℤ × ℤ) × List Point)) {pts : List Point} {st : EngineState},
      MInv ts headers pts k st →
      (∀ e ∈ R, e.2 ≠ [] ∧ (∀ p ∈ e.2, tileIndex ts p = e.1) ∧
        (plannedSet ts headers e.1 \ Finset.range k) ≠ ∅) →
      ∃ st2, dispatchRuns outdir header R st = .ok st2 ∧
        MInv ts headers (pts ++ (R.map Prod.snd).flatten) k st2 := by
  intro R
  induction R with
  | nil =>
    intro pts st hinv _
    exact ⟨st, rfl, by simpa using hinv⟩
  | cons e rest ih =>
    intro pts st hinv hR
    obtain ⟨t, run⟩ := e
    obtain ⟨hne, hmem, hpl⟩ := hR (t, run) (List.mem_cons_self _ _)
    obtain ⟨st2, hok, hinv2⟩ := dispatchRun_spec outdir header hinv hne hmem hpl
    obtain ⟨st3, hok3, hinv3⟩ := ih hinv2 (fun e he => hR e (List.mem_cons_of_mem _ he))
    refine ⟨st3, ?_, ?_⟩
    · rw [dispatchRuns, hok]
      exact hok3
    · simpa [List.append_assoc] using hinv3

lemma processBatches_spec (ts : ℚ) (outdir : String) (header : Header)
    {headers : List Header} {k : ℕ} :
    ∀ (batches : List (List Point)) {pts : List Point} {st : EngineState},
      MInv ts headers pts k st →
      (∀ p ∈ batches.flatten, k ∈ plannedSet ts headers (tileIndex ts p)) →
      ∃ st2, processBatches ts outdir header batches st = .ok st2 ∧
        MInv ts headers (pts ++ batches.flatten) k st2 := by
  intro batches
  induction batches with
  | nil =>
    intro pts st hinv _
    exact ⟨st, rfl, by simpa using hinv⟩
  | cons batch rest ih =>
    intro pts st hinv hpl
    have hruns : ∀ e ∈ splitRuns ts batch, e.2 ≠ [] ∧
        (∀ p ∈ e.2, tileIndex ts p = e.1) ∧
        (plannedSet ts headers e.1 \ Finset.range k) ≠ ∅ := by
      intro e he
      obtain ⟨hne, hmem, hsub⟩ := splitRuns_runs ts batch e he
      refine ⟨hne, hmem, ?_⟩
      obtain ⟨p, hp⟩ := List.exists_mem_of_ne_nil _ hne
      have hpQ : p ∈ batch := hsub p hp
      have hkp : k ∈ plannedSet ts headers (tileIndex ts p) :=
        hpl p (by rw [List.flatten_cons]; exact List.mem_append_left _ hpQ)
      rw [hmem p hp] at hkp
      intro hempty
      have : k ∈ plannedSet ts headers e.1 \ Finset.range k :=
        Finset.mem_sdiff.mpr ⟨hkp, by simp⟩
      rw [hempty] at this
      simp at this
    obtain ⟨st2, hok, hinv2⟩ := dispatchRuns_spec outdir header (splitRuns ts batch)
      hinv hruns
    rw [splitRuns_flatten] at hinv2
    obtain ⟨st3, hok3, hinv3⟩ := ih hinv2 (fun p hp =>
      hpl p (by rw [List.flatten_cons]; exact List.mem_append_right _ hp))
    refine ⟨st3, ?_, ?_⟩
    · rw [processBatches, hok]
      exact hok3
    · simpa [List.append_assoc] using hinv3

/-! ## Lemmas: retiring preserves the invariant -/

lemma erase_sdiff_range (S : Finset ℕ) (k : ℕ) :
    (S \ Finset.range k).erase k = S \ Finset.range (k + 1) := by
  ext j
  simp only [Finset.mem_erase, Finset.mem_sdiff, Finset.mem_range]
  constructor
  · rintro ⟨h1, h2, h3⟩
    exact ⟨h2, by omega⟩
  · rintro ⟨h1, h2⟩
    exact ⟨by omega, h1, by omega⟩

lemma retire_MInv {ts : ℚ} {headers : List Header} {pts : List Point} {k : ℕ}
    {st : EngineState} (hinv : MInv ts headers pts k st) :
    MInv ts headers pts (k + 1) (retire k st) := by
  have hchar := lookupA_retireAux k hinv.nodupReg
  constructor
  · exact nodup_keysA_retireAux k hinv.nodupReg
  · intro t tile2 hlk
    rw [retire] at hlk
    rw [hchar t] at hlk
    cases hlook : lookupA st.registry t with
    | none => rw [hlook] at hlk; simp at hlk
    | some tile =>
      rw [hlook] at hlk
      simp only at hlk
      by_cases he : tile.input_files.erase k = ∅
      · rw [if_pos he] at hlk; simp at hlk
      · rw [if_neg he] at hlk
        obtain rfl := Option.some.inj hlk
        obtain ⟨hidx, hset, hsne, hwiff⟩ := hinv.regSome t tile hlook
        refine ⟨hidx, ?_, ?_, hwiff⟩
        · rw [hset] at he ⊢
          rw [erase_sdiff_range]
        · rw [hset] at he
          rw [hset, erase_sdiff_range] at *
          exact he
  · intro t hpl
    have hpl0 : (plannedSet ts headers t \ Finset.range k) ≠ ∅ := by
      intro hc
      apply hpl
      have hsub : plannedSet ts headers t \ Finset.range (k + 1) ⊆
          plannedSet ts headers t \ Finset.range k := by
        apply Finset.sdiff_subset_sdiff (le_refl _)
        intro j hj
        rw [Finset.mem_range] at hj ⊢
        omega
      rw [← Finset.subset_empty, ← hc]
      exact hsub
    have hsome := hinv.regCover t hpl0
    obtain ⟨tile, hlook⟩ : ∃ tile, lookupA st.registry t = some tile := by
      cases h : lookupA st.registry t with
      | none => rw [h] at hsome; simp at hsome
      | some tile => exact ⟨tile, rfl⟩
    obtain ⟨hidx, hset, hsne, hwiff⟩ := hinv.regSome t tile hlook
    rw [retire]
    rw [hchar t, hlook]
    simp only
    rw [if_neg (by rw [hset, erase_sdiff_range]; exact hpl)]
    rfl
  · intro t
    rw [retire]
    exact hinv.filesChar t
  · rw [retire]
    exact hinv.total

/-! ## Lemmas: the whole streaming loop -/

lemma processFrom_spec (ts : ℚ) (outdir : String) {headers : List Header} :
    ∀ (rest : List InputFile) (k : ℕ) {pts : List Point} {st : EngineState},
      MInv ts headers pts k st →
      (∀ j f, rest[j]? = some f → ∀ p ∈ inputPoints f,
        (k + j) ∈ plannedSet ts headers (tileIndex ts p)) →
      ∃ st2, processFrom ts outdir k rest st = .ok st2 ∧
        MInv ts headers (pts ++ (rest.map inputPoints).flatten) (k + rest.length) st2 := by
  intro rest
  induction rest with
  | nil =>
    intro k pts st hinv _
    exact ⟨st, rfl, by simpa using hinv⟩
  | cons f rest2 ih =>
    intro k pts st hinv hplan
    have hbatch : ∀ p ∈ f.batches.flatten, k ∈ plannedSet ts headers (tileIndex ts p) := by
      intro p hp
      have := hplan 0 f (by simp) p hp
      simpa using this
    obtain ⟨st2, hok2, hinv2⟩ :=
      processBatches_spec ts outdir f.header f.batches hinv hbatch
    have hinv3 : MInv ts headers (pts ++ f.batches.flatten) (k + 1) (retire k st2) :=
      retire_MInv hinv2
    have hplan2 : ∀ j f2, rest2[j]? = some f2 → ∀ p ∈ inputPoints f2,
        ((k + 1) + j) ∈ plannedSet ts headers (tileIndex ts p) := by
      intro j f2 hj p hp
      have := hplan (j + 1) f2 (by simpa using hj) p hp
      have harith : k + (j + 1) = (k + 1) + j := by omega
      rwa [harith] at this
    obtain ⟨st4, hok4, hinv4⟩ := ih (k + 1) hinv3 hplan2
    refine ⟨st4, ?_, ?_⟩
    · rw [processFrom, hok2]
      exact hok4
    · have harith : k + (f :: rest2).length = (k + 1) + rest2.length := by
        simp only [List.length_cons]
        omega
      rw [harith]
      have : pts ++ ((f :: rest2).map inputPoints).flatten =
          (pts ++ inputPoints f) ++ (rest2.map inputPoints).flatten := by
        simp [inputPoints, List.append_assoc]
      rw [this]
      exact hinv4

lemma MInv_start (ts : ℚ) (inputs : List InputFile) :
    MInv ts (inputs.map (·.header)) [] 0 (startState ts inputs) := by
  constructor
  · exact nodup_keysA_plan ts _
  · intro t tile hlk
    rw [startState] at hlk
    rw [lookupA_plan] at hlk
    by_cases he : plannedSet ts (inputs.map (·.header)) t = ∅
    · rw [if_pos he] at hlk; simp at hlk
    · rw [if_neg he] at hlk
      obtain rfl := Option.some.inj hlk
      refine ⟨rfl, by simp, by simpa using he, by simp [ptsAt_nil]⟩
  · intro t hpl
    rw [startState, lookupA_plan]
    rw [if_neg (by simpa using hpl)]
    rfl
  · intro t
    rw [startState]
    simp [ptsAt_nil]
  · rw [startState, filesTotal]
    rfl

/-- Under a positive tile size and header-honest inputs, the streaming phase
runs to completion and its final state satisfies the full characterization. -/
lemma run_characterization {ts : ℚ} (outdir : String) {inputs : List InputFile}
    (hts : 0 < ts) (hb : InBounds inputs) :
    ∃ st2, processFrom ts outdir 0 inputs (startState ts inputs) = .ok st2 ∧
      MInv ts (inputs.map (·.header)) (allPoints inputs) inputs.length st2 := by
  have h0 := MInv_start ts inputs
  have hip : ∀ j f, inputs[j]? = some f → ∀ p ∈ inputPoints f,
      (0 + j) ∈ plannedSet ts (inputs.map (·.header)) (tileIndex ts p) := by
    intro j f hj p hp
    have hf : f ∈ inputs := List.getElem?_mem hj
    have hpb := hb f hf p hp
    have hr := inRectB_of_pointInBounds hts hpb
    rw [mem_plannedSet_iff]
    refine ⟨f.header, ?_, hr⟩
    rw [List.getElem?_map, Nat.zero_add, hj]
    rfl
  obtain ⟨st2, hok, hinv⟩ := processFrom_spec ts outdir inputs 0 h0 hip
  refine ⟨st2, hok, ?_⟩
  simpa [allPoints] using hinv

/-! ## Lemmas: the registry empties unconditionally -/


lemma get_writer_input_files (tile : OutTile) (outdir : String) (header : Header) :
    ((tile.get_writer outdir header).1).input_files = tile.input_files := by
  unfold OutTile.get_writer
  cases tile.writer <;> rfl

lemma dispatchRun_RegOK {outdir : String} {header : Header} {st st2 : EngineState}
    {t : ℤ × ℤ} {run : List Point} {lo hi : ℕ}
    (h : dispatchRun outdir header st t run = .ok st2) (hro : RegOK lo hi st) :
    RegOK lo hi st2 := by
  cases hlook : lookupA st.registry t with
  | none =>
    rw [dispatchRun, hlook] at h
    simp at h
  | some tile =>
    have key : dispatchRun outdir header st t run = Except.ok
        ⟨setA st.registry t (tile.get_writer outdir header).1,
          if (tile.get_writer outdir header).2.2 then setA st.files t run
          else appendA st.files t run,
          st.trace ++ (if (tile.get_writer outdir header).2.2 then [Event.opened t] else [])
            ++ [Event.wrote t run.length]⟩ := by
      rw [dispatchRun, hlook]
    obtain rfl := Except.ok.inj (h.symm.trans key)
    intro e he
    rcases mem_setA he with rfl | he2
    · have hmem : (t, tile) ∈ st.registry := lookupA_some_mem hlook
      have := hro (t, tile) hmem
      simpa [get_writer_input_files] using this
    · exact hro e he2

lemma dispatchRuns_RegOK {outdir : String} {header : Header} {lo hi : ℕ} :
    ∀ (R : List ((ℤ × ℤ) × List Point)) {st st2 : EngineState},
      dispatchRuns outdir header R st = .ok st2 → RegOK lo hi st → RegOK lo hi st2 := by
  intro R
  induction R with
  | nil =>
    intro st st2 h hro
    obtain rfl := Except.ok.inj h
    exact hro
  | cons e rest ih =>
    intro st st2 h hro
    obtain ⟨t, run⟩ := e
    rw [dispatchRuns] at h
    cases hd : dispatchRun outdir header st t run with
    | error e2 => rw [hd] at h; simp at h
    | ok st3 =>
      rw [hd] at h
      exact ih h (dispatchRun_RegOK hd hro)

lemma processBatches_RegOK {ts : ℚ} {outdir : String} {header : Header} {lo hi : ℕ} :
    ∀ (batches : List (List Point)) {st st2 : EngineState},
      processBatches ts outdir header batches st = .ok st2 →
      RegOK lo hi st → RegOK lo hi st2 := by
  intro batches
  induction batches with
  | nil =>
    intro st st2 h hro
    obtain rfl := Except.ok.inj h
    exact hro
  | cons batch rest ih =>
    intro st st2 h hro
    rw [processBatches] at h
    cases hd : dispatchRuns outdir header (splitRuns ts batch) st with
    | error e2 => rw [hd] at h; simp at h
    | ok st3 =>
      rw [hd] at h
      exact ih h (dispatchRuns_RegOK _ hd hro)

lemma retire_RegOK {k hi : ℕ} {st : EngineState} (hro : RegOK k hi st) :
    RegOK (k + 1) hi (retire k st) := by
  intro e he
  rw [retire] at he
  obtain ⟨e', hmem, hfst, hset, hne⟩ := mem_retireAux_fst he
  refine ⟨hne, ?_⟩
  intro j hj
  rw [hset] at hj
  have hj2 := Finset.mem_of_mem_erase hj
  have hjk := Finset.ne_of_mem_erase hj
  have := (hro e' hmem).2 j hj2
  omega

lemma processFrom_registry_empty {ts : ℚ} {outdir : String} :
    ∀ (rest : List InputFile) (k : ℕ) {st st2 : EngineState},
      processFrom ts outdir k rest st = .ok st2 →
      RegOK k (k + rest.length) st → st2.registry = [] := by
  intro rest
  induction rest with
  | nil =>
    intro k st st2 h hro
    obtain rfl := Except.ok.inj h
    rw [List.eq_nil_iff_forall_not_mem]
    intro e he
    obtain ⟨hne, hbd⟩ := hro e he
    obtain ⟨j, hj⟩ := Finset.nonempty_iff_ne_empty.mpr hne
    have := hbd j hj
    simp at this
    omega
  | cons f rest2 ih =>
    intro k st st2 h hro
    rw [processFrom] at h
    cases hb : processBatches ts outdir f.header f.batches st with
    | error e2 => rw [hb] at h; simp at h
    | ok st3 =>
      rw [hb] at h
      have hro3 : RegOK k (k + (f :: rest2).length) st3 :=
        processBatches_RegOK _ hb hro
      have hro4 : RegOK (k + 1) ((k + 1) + rest2.length) (retire k st3) := by
        have := retire_RegOK hro3
        simpa [Nat.add_comm, Nat.add_assoc, Nat.add_left_comm] using this
      exact ih (k + 1) h hro4

lemma startState_RegOK (ts : ℚ) (inputs : List InputFile) :
    RegOK 0 inputs.length (startState ts inputs) := by
  intro e he
  rw [startState] at he
  have hl : lookupA (plan ts (inputs.map (·.header))) e.1 = some e.2 := by
    obtain ⟨t, tile⟩ := e
    exact mem_lookupA_of_nodup (nodup_keysA_plan ts _) he
  rw [lookupA_plan] at hl
  by_cases hp : plannedSet ts (inputs.map (·.header)) e.1 = ∅
  · rw [if_pos hp] at hl; simp at hl
  · rw [if_neg hp] at hl
    have heq := Option.some.inj hl
    rw [← heq]
    refine ⟨by simpa using hp, ?_⟩
    intro j hj
    simp only at hj
    have := plannedSet_subset_range ts (inputs.map (·.header)) e.1 hj
    rw [Finset.mem_range, List.length_map] at this
    omega

/-! ## Lemmas: per-tile open/close discipline (unconditional trace invariant) -/

@[simp] lemma retire_registry (i : ℕ) (st : EngineState) :
    (retire i st).registry = (retireAux i st.registry).1 := rfl

@[simp] lemma retire_files (i : ℕ) (st : EngineState) :
    (retire i st).files = st.files := rfl

@[simp] lemma retire_trace (i : ℕ) (st : EngineState) :
    (retire i st).trace = st.trace ++ (retireAux i st.registry).2 := rfl


lemma count_closed_wrote (t t' : ℤ × ℤ) (n : ℕ) :
    ([Event.wrote t n] : List Event).count (Event.closed t') = 0 := by
  rw [List.count_eq_zero]
  simp

lemma count_closed_opened_wrote (t t' : ℤ × ℤ) (n : ℕ) :
    ([Event.opened t, Event.wrote t n] : List Event).count (Event.closed t') = 0 := by
  rw [List.count_eq_zero]
  simp

lemma count_opened_wrote (t t' : ℤ × ℤ) (n : ℕ) :
    ([Event.wrote t n] : List Event).count (Event.opened t') = 0 := by
  rw [List.count_eq_zero]
  simp

lemma count_opened_opened_wrote_self (t : ℤ × ℤ) (n : ℕ) :
    ([Event.opened t, Event.wrote t n] : List Event).count (Event.opened t) = 1 := by
  rw [List.count_cons_self, List.count_cons_of_ne (by simp), List.count_nil]

lemma count_opened_opened_wrote_other {t t' : ℤ × ℤ} (hne : ¬ t = t') (n : ℕ) :
    ([Event.opened t, Event.wrote t n] : List Event).count (Event.opened t') = 0 := by
  rw [List.count_eq_zero]
  simp [Ne.symm hne]

lemma eventsFor_other_wrote {t t' : ℤ × ℤ} (hne : ¬ t = t') (n : ℕ) :
    eventsFor t' ([Event.wrote t n] : List Event) = [] := by
  simp [eventsFor, hne]

lemma eventsFor_other_opened_wrote {t t' : ℤ × ℤ} (hne : ¬ t = t') (n : ℕ) :
    eventsFor t' ([Event.opened t, Event.wrote t n] : List Event) = [] := by
  simp [eventsFor, hne]

@[simp] lemma finalState_ok (st : EngineState) :
    finalState (Except.ok st : Except (RunError × EngineState) EngineState) = st := rfl

@[simp] lemma finalState_error (e : RunError × EngineState) :
    finalState (Except.error e : Except (RunError × EngineState) EngineState) = e.2 := rfl

lemma dispatchRun_Inv9 {outdir : String} {header : Header} {st : EngineState}
    {t : ℤ × ℤ} {run : List Point} (h9 : Inv9 st) :
    Inv9 (finalState (dispatchRun outdir header st t run)) := by
  cases hlook : lookupA st.registry t with
  | none =>
    have key : dispatchRun outdir header st t run = .error (.tileShouldExist t, st) := by
      rw [dispatchRun, hlook]
    rw [key, finalState_error]
    exact h9
  | some tile =>
    cases hw : tile.writer with
    | none =>
      have key : dispatchRun outdir header st t run = Except.ok
          ⟨setA st.registry t
              { tile with writer := some ⟨tile_path outdir tile.tile_index, header.clear⟩ },
            setA st.files t run,
            st.trace ++ [Event.opened t, Event.wrote t run.length]⟩ := by
        simp [dispatchRun, hlook, OutTile.get_writer, hw]
      rw [key, finalState_ok]
      constructor
      · exact nodup_keysA_setA h9.nodup
      · intro t' tile' hlk
        rw [lookupA_setA] at hlk
        by_cases ht : t = t'
        · subst ht
          rw [if_pos rfl] at hlk
          obtain rfl := Option.some.inj hlk
          obtain ⟨hc, ho⟩ := h9.present t tile hlook
          rw [hw] at ho
          constructor
          · rw [List.count_append, hc, count_closed_opened_wrote]
          · rw [List.count_append, ho, count_opened_opened_wrote_self]
        · rw [if_neg ht] at hlk
          obtain ⟨hc, ho⟩ := h9.present t' tile' hlk
          constructor
          · rw [List.count_append, hc, count_closed_opened_wrote]
          · rw [List.count_append, ho, count_opened_opened_wrote_other ht]
            omega
      · intro t' hlk
        rw [lookupA_setA] at hlk
        by_cases ht : t = t'
        · rw [if_pos ht] at hlk
          simp at hlk
        · rw [if_neg ht] at hlk
          rcases h9.absent t' hlk with hcase | ⟨u, hu, hc, ho⟩
          · left
            rw [eventsFor_append, hcase, eventsFor_other_opened_wrote ht,
              List.append_nil]
          · right
            exact ⟨u, by rw [eventsFor_append, hu, eventsFor_other_opened_wrote ht,
              List.append_nil], hc, ho⟩
    | some w =>
      have key : dispatchRun outdir header st t run = Except.ok
          ⟨setA st.registry t tile, appendA st.files t run,
            st.trace ++ [Event.wrote t run.length]⟩ := by
        simp [dispatchRun, hlook, OutTile.get_writer, hw]
      rw [key, finalState_ok]
      constructor
      · exact nodup_keysA_setA h9.nodup
      · intro t' tile' hlk
        rw [lookupA_setA] at hlk
        by_cases ht : t = t'
        · subst ht
          rw [if_pos rfl] at hlk
          obtain rfl := Option.some.inj hlk
          obtain ⟨hc, ho⟩ := h9.present t tile hlook
          constructor
          · rw [List.count_append, hc, count_closed_wrote]
          · rw [List.count_append, ho, count_opened_wrote, Nat.add_zero]
        · rw [if_neg ht] at hlk
          obtain ⟨hc, ho⟩ := h9.present t' tile' hlk
          constructor
          · rw [List.count_append, hc, count_closed_wrote]
          · rw [List.count_append, ho, count_opened_wrote, Nat.add_zero]
      · intro t' hlk
        rw [lookupA_setA] at hlk
        by_cases ht : t = t'
        · rw [if_pos ht] at hlk
          simp at hlk
        · rw [if_neg ht] at hlk
          rcases h9.absent t' hlk with hcase | ⟨u, hu, hc, ho⟩
          · left
            rw [eventsFor_append, hcase, eventsFor_other_wrote ht, List.append_nil]
          · right
            exact ⟨u, by rw [eventsFor_append, hu, eventsFor_other_wrote ht,
              List.append_nil], hc, ho⟩

lemma retire_Inv9 {k : ℕ} {st : EngineState} (h9 : Inv9 st) : Inv9 (retire k st) := by
  have hchar := lookupA_retireAux k h9.nodup
  have hech := eventsFor_retireAux k h9.nodup
  constructor
  · rw [retire_registry]
    exact nodup_keysA_retireAux k h9.nodup
  · intro t tile2 hlk
    rw [retire_registry] at hlk
    rw [hchar t] at hlk
    cases hlook : lookupA st.registry t with
    | none => rw [hlook] at hlk; simp at hlk
    | some tile =>
      rw [hlook] at hlk
      simp only at hlk
      by_cases he : tile.input_files.erase k = ∅
      · rw [if_pos he] at hlk; simp at hlk
      · rw [if_neg he] at hlk
        obtain rfl := Option.some.inj hlk
        obtain ⟨hc, ho⟩ := h9.present t tile hlook
        have hev : eventsFor t (retireAux k st.registry).2 = [] := by
          rw [hech t, hlook]
          simp [he]
        constructor
        · rw [retire_trace, List.count_append, hc,
            ← count_closed_eventsFor t (retireAux k st.registry).2, hev]
          rfl
        · rw [retire_trace, List.count_append,
            ← count_opened_eventsFor t (retireAux k st.registry).2, hev]
          simpa using ho
  · intro t hlk
    rw [retire_registry] at hlk
    rw [hchar t] at hlk
    cases hlook : lookupA st.registry t with
    | none =>
      have hev : eventsFor t (retireAux k st.registry).2 = [] := by
        rw [hech t, hlook]
      rw [retire_trace, eventsFor_append, hev, List.append_nil]
      exact h9.absent t hlook
    | some tile =>
      rw [hlook] at hlk
      simp only at hlk
      by_cases he : tile.input_files.erase k = ∅
      · have hev : eventsFor t (retireAux k st.registry).2 = [Event.closed t] := by
          rw [hech t, hlook]
          simp [he]
        obtain ⟨hc, ho⟩ := h9.present t tile hlook
        right
        refine ⟨eventsFor t st.trace, ?_, ?_, ?_⟩
        · rw [retire_trace, eventsFor_append, hev]
        · rw [count_closed_eventsFor]
          exact hc
        · rw [count_opened_eventsFor, ho]
          cases tile.writer <;> simp
      · rw [if_neg he] at hlk
        simp at hlk

lemma dispatchRuns_Inv9 {outdir : String} {header : Header} :
    ∀ (R : List ((ℤ × ℤ) × List Point)) {st : EngineState}, Inv9 st →
      Inv9 (finalState (dispatchRuns outdir header R st)) := by
  intro R
  induction R with
  | nil =>
    intro st h9
    exact h9
  | cons e rest ih =>
    intro st h9
    obtain ⟨t, run⟩ := e
    rw [dispatchRuns]
    cases hd : dispatchRun outdir header st t run with
    | error e2 =>
      have := @dispatchRun_Inv9 outdir header st t run h9
      rw [hd] at this
      exact this
    | ok st3 =>
      have := @dispatchRun_Inv9 outdir header st t run h9
      rw [hd, finalState_ok] at this
      exact ih this

lemma processBatches_Inv9 {ts : ℚ} {outdir : String} {header : Header} :
    ∀ (batches : List (List Point)) {st : EngineState}, Inv9 st →
      Inv9 (finalState (processBatches ts outdir header batches st)) := by
  intro batches
  induction batches with
  | nil => intro st h9; exact h9
  | cons batch rest ih =>
    intro st h9
    rw [processBatches]
    cases hd : dispatchRuns outdir header (splitRuns ts batch) st with
    | error e2 =>
      have := @dispatchRuns_Inv9 outdir header (splitRuns ts batch) st h9
      rw [hd] at this
      exact this
    | ok st3 =>
      have := @dispatchRuns_Inv9 outdir header (splitRuns ts batch) st h9
      rw [hd, finalState_ok] at this
      exact ih this

lemma processFrom_Inv9 {ts : ℚ} {outdir : String} :
    ∀ (rest : List InputFile) (k : ℕ) {st : EngineState}, Inv9 st →
      Inv9 (finalState (processFrom ts outdir k rest st)) := by
  intro rest
  induction rest with
  | nil => intro k st h9; exact h9
  | cons f rest2 ih =>
    intro k st h9
    rw [processFrom]
    cases hd : processBatches ts outdir f.header f.batches st with
    | error e2 =>
      have := @processBatches_Inv9 ts outdir f.header f.batches st h9
      rw [hd] at this
      exact this
    | ok st3 =>
      have := @processBatches_Inv9 ts outdir f.header f.batches st h9
      rw [hd, finalState_ok] at this
      exact ih (k + 1) (retire_Inv9 this)

lemma startState_Inv9 (ts : ℚ) (inputs : List InputFile) :
    Inv9 (startState ts inputs) := by
  constructor
  · exact nodup_keysA_plan ts _
  · intro t tile hlk
    rw [startState] at hlk
    rw [lookupA_plan] at hlk
    by_cases hp : plannedSet ts (inputs.map (·.header)) t = ∅
    · rw [if_pos hp] at hlk; simp at hlk
    · rw [if_neg hp] at hlk
      obtain rfl := Option.some.inj hlk
      exact ⟨rfl, rfl⟩
  · intro t hlk
    left
    rfl

lemma emptyState_Inv9 : Inv9 (⟨[], [], []⟩ : EngineState) := by
  constructor
  · simp
  · intro t tile hlk
    simp at hlk
  · intro t hlk
    left
    rfl

lemma runMain_Inv9 (ts : ℚ) (outdir : String) (inputs : List InputFile) :
    Inv9 (finalState (runMain ts outdir inputs)) := by
  rw [runMain]
  by_cases h1 : inputs.map (·.header) = []
  · rw [if_pos h1]
    exact emptyState_Inv9
  · rw [if_neg h1]
    by_cases h2 : overlappingPairs (inputs.map (·.header)) = []
    · rw [if_pos h2]
      have hrun := @processFrom_Inv9 ts outdir inputs 0 (startState ts inputs)
        (startState_Inv9 ts inputs)
      cases hd : processFrom ts outdir 0 inputs (startState ts inputs) with
      | error e2 =>
        rw [hd] at hrun
        exact hrun
      | ok st =>
        rw [hd, finalState_ok] at hrun
        show Inv9 (finalState (if st.registry = [] then Except.ok st
          else Except.error (RunError.registryNotEmpty, st)))
        by_cases h3 : st.registry = []
        · rw [if_pos h3, finalState_ok]
          exact hrun
        · rw [if_neg h3, finalState_error]
          exact hrun
    · rw [if_neg h2]
      exact emptyState_Inv9

/-- The per-tile discipline any `Inv9` state's trace satisfies. -/
lemma Inv9_trace_props {st : EngineState} (h9 : Inv9 st) (t : ℤ × ℤ) :
    openCount t st.trace ≤ 1 ∧ closeCount t st.trace ≤ 1 ∧
      ∀ u v, eventsFor t st.trace = u ++ Event.closed t :: v → v = [] := by
  cases hlk : lookupA st.registry t with
  | some tile =>
    obtain ⟨hc, ho⟩ := h9.present t tile hlk
    refine ⟨?_, ?_, ?_⟩
    · rw [openCount, ho]
      cases tile.writer <;> simp
    · rw [closeCount, hc]
      omega
    · intro u v hd
      exfalso
      have : (eventsFor t st.trace).count (Event.closed t) = 0 := by
        rw [count_closed_eventsFor, hc]
      rw [hd, List.count_append, List.count_cons_self] at this
      omega
  | none =>
    rcases h9.absent t hlk with hcase | ⟨u0, hu0, hc0, ho0⟩
    · refine ⟨?_, ?_, ?_⟩
      · rw [openCount, ← count_opened_eventsFor, hcase]
        simp
      · rw [closeCount, ← count_closed_eventsFor, hcase]
        simp
      · intro u v hd
        rw [hcase] at hd
        exact absurd hd.symm (by simp)
    · refine ⟨?_, ?_, ?_⟩
      · rw [openCount, ← count_opened_eventsFor, hu0, List.count_append]
        have : ([Event.closed t] : List Event).count (Event.opened t) = 0 := by
          rw [List.count_eq_zero]
          simp
        omega
      · rw [closeCount, ← count_closed_eventsFor, hu0, List.count_append,
          List.count_cons_self, List.count_nil]
        omega
      · intro u v hd
        rw [hu0] at hd
        by_contra hv
        obtain ⟨v2, c, hv2⟩ := List.eq_nil_or_concat v |>.resolve_left hv
        rw [List.concat_eq_append] at hv2
        subst hv2
        have hlast : c = Event.closed t := by
          have h1 : (u0 ++ [Event.closed t]).getLast? = some (Event.closed t) :=
            List.getLast?_concat _
          have h2 : (u ++ Event.closed t :: (v2 ++ [c])).getLast? = some c := by
            rw [show u ++ Event.closed t :: (v2 ++ [c])
              = (u ++ Event.closed t :: v2) ++ [c] by simp]
            exact List.getLast?_concat _
          rw [hd] at h1
          exact (Option.some.inj (h1.symm.trans h2)).symm
        have hcount : (u0 ++ [Event.closed t]).count (Event.closed t) = 1 := by
          rw [List.count_append, hc0, List.count_cons_self, List.count_nil]
        rw [hd, List.count_append, List.count_cons_self, List.count_append] at hcount
        subst hlast
        rw [List.count_cons_self] at hcount
        omega

/-! ## Lemmas: the overlap validator -/

lemma mem_allPairs {n i j : ℕ} : (i, j) ∈ allPairs n ↔ i < n ∧ j < n := by
  simp only [allPairs, List.mem_flatten, List.mem_map, List.mem_range]
  constructor
  · rintro ⟨l, ⟨a, ha, rfl⟩, hmem⟩
    obtain ⟨b, hb, heq⟩ := List.mem_map.mp hmem
    obtain ⟨rfl, rfl⟩ := Prod.mk.inj heq.symm
    exact ⟨ha, List.mem_range.mp hb⟩
  · rintro ⟨h1, h2⟩
    exact ⟨(List.range n).map (fun b => (i, b)), ⟨i, h1, rfl⟩,
      List.mem_map.mpr ⟨j, List.mem_range.mpr h2, rfl⟩⟩

lemma mem_overlappingPairs_iff {headers : List Header} {i j : ℕ} :
    (i, j) ∈ overlappingPairs headers ↔
      i ≠ j ∧ ∃ hi hj, headers[i]? = some hi ∧ headers[j]? = some hj ∧
        bounds_intersect hi.bounds hj.bounds = true := by
  rw [overlappingPairs, List.mem_filter]
  constructor
  · rintro ⟨hmem, hov⟩
    rw [overlapAt] at hov
    cases h1 : headers[i]? with
    | none => rw [h1] at hov; simp at hov
    | some hi =>
      cases h2 : headers[j]? with
      | none => rw [h1, h2] at hov; simp at hov
      | some hj =>
        rw [h1, h2] at hov
        simp only [Bool.and_eq_true, decide_eq_true_eq] at hov
        exact ⟨hov.1, hi, hj, rfl, rfl, hov.2⟩
  · rintro ⟨hne, hi, hj, h1, h2, hint⟩
    have hiltn : i < headers.length := by
      by_contra hc
      rw [List.getElem?_eq_none (by omega)] at h1
      simp at h1
    have hjltn : j < headers.length := by
      by_contra hc
      rw [List.getElem?_eq_none (by omega)] at h2
      simp at h2
    refine ⟨mem_allPairs.mpr ⟨hiltn, hjltn⟩, ?_⟩
    rw [overlapAt, h1, h2]
    simp [hne, hint]

lemma bounds_intersect_comm (a b : Bounds) :
    bounds_intersect a b = bounds_intersect b a := by
  rw [bounds_intersect, bounds_intersect]
  by_cases h1 : a.min.x > b.max.x <;> by_cases h2 : a.max.x < b.min.x <;>
    by_cases h3 : a.min.y > b.max.y <;> by_cases h4 : a.max.y < b.min.y <;>
    by_cases h5 : a.min.z > b.max.z <;> by_cases h6 : a.max.z < b.min.z <;>
    simp [h1, h2, h3, h4, h5, h6]

lemma overlappingPairs_eq_nil {headers : List Header}
    (hno : headers.Pairwise
      (fun h1 h2 => bounds_intersect h1.bounds h2.bounds = false)) :
    overlappingPairs headers = [] := by
  rw [overlappingPairs, List.filter_eq_nil_iff]
  rintro ⟨i, j⟩ hmem
  rw [mem_allPairs] at hmem
  obtain ⟨hi, hj⟩ := hmem
  rw [overlapAt]
  rw [List.getElem?_eq_getElem hi, List.getElem?_eq_getElem hj]
  simp only [Bool.and_eq_true, decide_eq_true_eq, not_and]
  intro hne
  rcases Nat.lt_or_ge i j with hlt | hge
  · have := List.pairwise_iff_getElem.mp hno i j hi hj hlt
    simp [this]
  · have hjlt : j < i := by omega
    have := List.pairwise_iff_getElem.mp hno j i hj hi hjlt
    rw [bounds_intersect_comm]
    simp [this]

/-! ## Lemmas: conservation of point counts (unconditional) -/


lemma dispatchRun_CInv {outdir : String} {header : Header} {st st2 : EngineState}
    {t : ℤ × ℤ} {run : List Point}
    (hci : CInv st) (h : dispatchRun outdir header st t run = .ok st2) :
    CInv st2 ∧ filesTotal st2 = filesTotal st + run.length := by
  cases hlook : lookupA st.registry t with
  | none => rw [dispatchRun, hlook] at h; simp at h
  | some tile =>
    cases hw : tile.writer with
    | none =>
      have hfile : lookupA st.files t = none := hci.wfiles t tile hlook hw
      have key : dispatchRun outdir header st t run = Except.ok
          ⟨setA st.registry t
              { tile with writer := some ⟨tile_path outdir tile.tile_index, header.clear⟩ },
            setA st.files t run,
            st.trace ++ [Event.opened t, Event.wrote t run.length]⟩ := by
        simp [dispatchRun, hlook, OutTile.get_writer, hw]
      obtain rfl := Except.ok.inj (h.symm.trans key)
      refine ⟨⟨nodup_keysA_setA hci.nodup, ?_⟩, ?_⟩
      · intro t' tile' hlk hwn
        rw [lookupA_setA] at hlk ⊢
        by_cases ht : t = t'
        · rw [if_pos ht] at hlk
          obtain rfl := Option.some.inj hlk
          simp at hwn
        · rw [if_neg ht] at hlk
          rw [if_neg ht]
          exact hci.wfiles t' tile' hlk hwn
      · show ((setA st.files t run).map (fun e => e.2.length)).sum = _
        rw [filesLen_setA_none hfile]
        rfl
    | some w =>
      have key : dispatchRun outdir header st t run = Except.ok
          ⟨setA st.registry t tile, appendA st.files t run,
            st.trace ++ [Event.wrote t run.length]⟩ := by
        simp [dispatchRun, hlook, OutTile.get_writer, hw]
      obtain rfl := Except.ok.inj (h.symm.trans key)
      refine ⟨⟨nodup_keysA_setA hci.nodup, ?_⟩, ?_⟩
      · intro t' tile' hlk hwn
        rw [lookupA_setA] at hlk
        rw [lookupA_appendA]
        by_cases ht : t = t'
        · rw [if_pos ht] at hlk
          obtain rfl := Option.some.inj hlk
          rw [hw] at hwn
          simp at hwn
        · rw [if_neg ht] at hlk
          rw [if_neg ht]
          exact hci.wfiles t' tile' hlk hwn
      · show ((appendA st.files t run).map (fun e => e.2.length)).sum = _
        rw [filesLen_appendA]
        rfl

lemma dispatchRuns_CInv {outdir : String} {header : Header} :
    ∀ (R : List ((ℤ × ℤ) × List Point)) {st st2 : EngineState},
      CInv st → dispatchRuns outdir header R st = .ok st2 →
      CInv st2 ∧ filesTotal st2 = filesTotal st + ((R.map Prod.snd).flatten).length := by
  intro R
  induction R with
  | nil =>
    intro st st2 hci h
    obtain rfl := Except.ok.inj h
    simp [hci]
  | cons e rest ih =>
    intro st st2 hci h
    obtain ⟨t, run⟩ := e
    rw [dispatchRuns] at h
    cases hd : dispatchRun outdir header st t run with
    | error e2 => rw [hd] at h; simp at h
    | ok st3 =>
      rw [hd] at h
      obtain ⟨hci3, htot3⟩ := dispatchRun_CInv hci hd
      obtain ⟨hci2, htot2⟩ := ih hci3 h
      refine ⟨hci2, ?_⟩
      rw [htot2, htot3]
      simp [List.length_append]
      omega

lemma processBatches_CInv {ts : ℚ} {outdir : String} {header : Header} :
    ∀ (batches : List (List Point)) {st st2 : EngineState},
      CInv st → processBatches ts outdir header batches st = .ok st2 →
      CInv st2 ∧ filesTotal st2 = filesTotal st + batches.flatten.length := by
  intro batches
  induction batches with
  | nil =>
    intro st st2 hci h
    obtain rfl := Except.ok.inj h
    simp [hci]
  | cons batch rest ih =>
    intro st st2 hci h
    rw [processBatches] at h
    cases hd : dispatchRuns outdir header (splitRuns ts batch) st with
    | error e2 => rw [hd] at h; simp at h
    | ok st3 =>
      rw [hd] at h
      obtain ⟨hci3, htot3⟩ := dispatchRuns_CInv _ hci hd
      rw [splitRuns_flatten] at htot3
      obtain ⟨hci2, htot2⟩ := ih hci3 h
      refine ⟨hci2, ?_⟩
      rw [htot2, htot3]
      simp [List.length_append]
      omega

lemma retire_CInv {k : ℕ} {st : EngineState} (hci : CInv st) : CInv (retire k st) := by
  refine ⟨?_, ?_⟩
  · rw [retire_registry]
    exact nodup_keysA_retireAux k hci.nodup
  · intro t tile2 hlk hwn
    rw [retire_registry, lookupA_retireAux k hci.nodup] at hlk
    rw [retire_files]
    cases hlook : lookupA st.registry t with
    | none => rw [hlook] at hlk; simp at hlk
    | some tile =>
      rw [hlook] at hlk
      simp only at hlk
      by_cases he : tile.input_files.erase k = ∅
      · rw [if_pos he] at hlk; simp at hlk
      · rw [if_neg he] at hlk
        obtain rfl := Option.some.inj hlk
        exact hci.wfiles t tile hlook hwn

lemma processFrom_CInv {ts : ℚ} {outdir : String} :
    ∀ (rest : List InputFile) (k : ℕ) {st st2 : EngineState},
      CInv st → processFrom ts outdir k rest st = .ok st2 →
      filesTotal st2 = filesTotal st + ((rest.map inputPoints).flatten).length := by
  intro rest
  induction rest with
  | nil =>
    intro k st st2 hci h
    obtain rfl := Except.ok.inj h
    simp
  | cons f rest2 ih =>
    intro k st st2 hci h
    rw [processFrom] at h
    cases hd : processBatches ts outdir f.header f.batches st with
    | error e2 => rw [hd] at h; simp at h
    | ok st3 =>
      rw [hd] at h
      obtain ⟨hci3, htot3⟩ := processBatches_CInv _ hci hd
      have htot2 := ih (k + 1) (retire_CInv hci3) h
      rw [htot2]
      have : filesTotal (retire k st3) = filesTotal st3 := rfl
      rw [this, htot3]
      simp [inputPoints, List.length_append]
      omega

lemma startState_CInv (ts : ℚ) (inputs : List InputFile) :
    CInv (startState ts inputs) := by
  refine ⟨nodup_keysA_plan ts _, ?_⟩
  intro t tile hlk hwn
  rfl

/-- Extracting the streaming phase from a successful `runMain`. -/
lemma runMain_ok_elim {ts : ℚ} {outdir : String} {inputs : List InputFile}
    {st : EngineState} (hok : runMain ts outdir inputs = .ok st) :
    inputs.map (·.header) ≠ [] ∧
    overlappingPairs (inputs.map (·.header)) = [] ∧
    processFrom ts outdir 0 inputs (startState ts inputs) = .ok st := by
  by_cases h1 : inputs.map (·.header) = []
  · rw [runMain, if_pos h1] at hok
    simp at hok
  · by_cases h2 : overlappingPairs (inputs.map (·.header)) = []
    · rw [runMain, if_neg h1, if_pos h2] at hok
      refine ⟨h1, h2, ?_⟩
      cases hd : processFrom ts outdir 0 inputs (startState ts inputs) with
      | error e2 => rw [hd] at hok; simp at hok
      | ok st3 =>
        rw [hd] at hok
        by_cases h3 : st3.registry = []
        · have : (if st3.registry = [] then (Except.ok st3 : Except (RunError × EngineState) EngineState)
              else Except.error (RunError.registryNotEmpty, st3)) = Except.ok st := hok
          rw [if_pos h3] at this
          rw [this]
        · have : (if st3.registry = [] then (Except.ok st3 : Except (RunError × EngineState) EngineState)
              else Except.error (RunError.registryNotEmpty, st3)) = Except.ok st := hok
          rw [if_neg h3] at this
          simp at this
    · rw [runMain, if_neg h1, if_neg h2] at hok
      simp at hok


lemma axis_overlap_iff {a1 a2 b1 b2 : ℚ} (ha : a1 ≤ a2) (hb : b1 ≤ b2) :
    (a1 ≤ b2 ∧ b1 ≤ a2) ↔ ∃ v, a1 ≤ v ∧ v ≤ a2 ∧ b1 ≤ v ∧ v ≤ b2 := by
  constructor
  · rintro ⟨h1, h2⟩
    exact ⟨Max.max a1 b1, le_max_left _ _, max_le ha h2, le_max_right _ _, max_le h1 hb⟩
  · rintro ⟨v, h1, h2, h3, h4⟩
    exact ⟨le_trans h1 h4, le_trans h3 h2⟩

/-! ## The claims -/

/-- C5: for every pair of input bounding boxes, `bounds_intersect` reports
intersection if and only if the boxes overlap as closed intervals on every
axis (x, y and z); strict separation on any single axis implies
non-intersection, and boxes that merely touch on a boundary count as
intersecting (a shared coordinate value witnesses the closed-interval
overlap). -/
theorem c5_bounds_intersect_iff (a b : Bounds) (ha : boundsWF a) (hb : boundsWF b) :
    bounds_intersect a b = true ↔
      ((∃ v, a.min.x ≤ v ∧ v ≤ a.max.x ∧ b.min.x ≤ v ∧ v ≤ b.max.x) ∧
       (∃ v, a.min.y ≤ v ∧ v ≤ a.max.y ∧ b.min.y ≤ v ∧ v ≤ b.max.y) ∧
       (∃ v, a.min.z ≤ v ∧ v ≤ a.max.z ∧ b.min.z ≤ v ∧ v ≤ b.max.z)) := by
  obtain ⟨hax, hay, haz⟩ := ha
  obtain ⟨hbx, hby, hbz⟩ := hb
  rw [bounds_intersect]
  simp only [Bool.not_eq_true', Bool.or_eq_false_iff, decide_eq_false_iff_not, not_lt]
  constructor
  · rintro ⟨⟨⟨⟨⟨h1, h2⟩, h3⟩, h4⟩, h5⟩, h6⟩
    exact ⟨(axis_overlap_iff hax hbx).mp ⟨h1, h2⟩,
      (axis_overlap_iff hay hby).mp ⟨h3, h4⟩,
      (axis_overlap_iff haz hbz).mp ⟨h5, h6⟩⟩
  · rintro ⟨hx, hy, hz⟩
    obtain ⟨x1, x2⟩ := (axis_overlap_iff hax hbx).mpr hx
    obtain ⟨y1, y2⟩ := (axis_overlap_iff hay hby).mpr hy
    obtain ⟨z1, z2⟩ := (axis_overlap_iff haz hbz).mpr hz
    exact ⟨⟨⟨⟨⟨x1, x2⟩, y1⟩, y2⟩, z1⟩, z2⟩

/-- Witness for C5 at two boxes that touch exactly on the plane `x = 1`:
touching boundaries count as intersecting. -/
theorem c5_bounds_intersect_witness :
    bounds_intersect ⟨⟨0, 0, 0⟩, ⟨1, 1, 1⟩⟩ ⟨⟨1, 0, 0⟩, ⟨2, 1, 1⟩⟩ = true ↔
      ((∃ v, (0 : ℚ) ≤ v ∧ v ≤ 1 ∧ 1 ≤ v ∧ v ≤ 2) ∧
       (∃ v, (0 : ℚ) ≤ v ∧ v ≤ 1 ∧ 0 ≤ v ∧ v ≤ 1) ∧
       (∃ v, (0 : ℚ) ≤ v ∧ v ≤ 1 ∧ 0 ≤ v ∧ v ≤ 1)) :=
  c5_bounds_intersect_iff ⟨⟨0, 0, 0⟩, ⟨1, 1, 1⟩⟩ ⟨⟨1, 0, 0⟩, ⟨2, 1, 1⟩⟩
    (by refine ⟨?_, ?_, ?_⟩ <;> norm_num) (by refine ⟨?_, ?_, ?_⟩ <;> norm_num)

/-- C7 counterexample: for the input bounds `[-5, 5]²` and tile size `10`, the
spec's floor-based planning rectangle is `[-1, 0] × [-1, 0]`, which contains
the tile `(-1, -1)`; the code's planner (which casts with `as i32`, truncating
toward zero) registers no tile at all at `(-1, -1)` — its only planned tile is
`(0, 0)`. -/
theorem c7_floor_counterexample :
    ⌊((-5 : ℚ) / 10)⌋ = -1 ∧ ⌊((5 : ℚ) / 10)⌋ = 0 ∧
    lookupA (plan 10 [c7Header]) (-1, -1) = none ∧
    lookupA (plan 10 [c7Header]) (0, 0) = some ⟨(0, 0), {0}, none⟩ ∧
    keysA (plan 10 [c7Header]) = [(0, 0)] := by
  refine ⟨?_, ?_, ?_, ?_, ?_⟩
  · rw [Int.floor_eq_iff]
    norm_num
  · rw [Int.floor_eq_iff]
    norm_num
  · with_unfolding_all decide
  · with_unfolding_all decide
  · with_unfolding_all decide

/-- C7 (amended): for every input and tile size, the planner registers input
`i` as a contributor to exactly the tile indices in the inclusive rectangle
`[min_tile.x, max_tile.x] × [min_tile.y, max_tile.y]`, where `min_tile` and
`max_tile` are obtained from `bounds.min / tile_size` and
`bounds.max / tile_size` with Rust's saturating `as i32` cast (truncation
toward zero) — not with `floor`, which differs for negative coordinates. -/
theorem c7_planner_rectangle_amended (ts : ℚ) (headers : List Header) :
    (∀ t, lookupA (plan ts headers) t =
      if plannedSet ts headers t = ∅ then none
      else some ⟨t, plannedSet ts headers t, none⟩) ∧
    (∀ i t, i ∈ plannedSet ts headers t ↔
      ∃ h, headers[i]? = some h ∧ inRectB ts h.bounds t = true) :=
  ⟨fun t => lookupA_plan ts headers t, fun i t => mem_plannedSet_iff ts headers i t⟩

/-- C8: the first `get_writer` call for a tile creates the backing file at
`tile_path`, a pure function of the tile index and output directory, named
`tile_<tx>_<ty>.laz` (`tx`, `ty` may be negative), with the header derived
from the input's template by clearing the point-count/statistics fields;
every later call returns the already-open handle without creating a file. -/
theorem c8_get_writer_behavior (tile : OutTile) (outdir : String) (header : Header) :
    (tile.writer = none →
      tile.get_writer outdir header =
        ({ tile with writer := some ⟨tile_path outdir tile.tile_index, header.clear⟩ },
          (⟨tile_path outdir tile.tile_index, header.clear⟩ : Writer), true) ∧
      (header.clear).number_of_points = 0 ∧
      (header.clear).template = header.template ∧
      tile_path outdir tile.tile_index =
        outdir ++ "/tile_" ++ toString tile.tile_index.1 ++ "_"
          ++ toString tile.tile_index.2 ++ ".laz") ∧
    (∀ w, tile.writer = some w → tile.get_writer outdir header = (tile, w, false)) := by
  constructor
  · intro hw
    refine ⟨?_, rfl, rfl, rfl⟩
    rw [OutTile.get_writer, hw]
  · intro w hw
    rw [OutTile.get_writer, hw]

/-- Witness for C8: a fresh tile at the negative index `(-1, -2)` gets the
file `out/tile_-1_-2.laz`; a tile with an open writer is returned as-is. -/
theorem c8_get_writer_witness :
    (OutTile.get_writer ⟨(-1, -2), {0}, none⟩ "out" c8SampleHeader).2.1.path
      = "out/tile_-1_-2.laz" ∧
    OutTile.get_writer ⟨(3, 4), {0}, some c8SampleWriter⟩ "out" c8SampleHeader
      = (⟨(3, 4), {0}, some c8SampleWriter⟩, c8SampleWriter, false) := by
  constructor
  · have h1 := (c8_get_writer_behavior ⟨(-1, -2), {0}, none⟩ "out" c8SampleHeader).1 rfl
    rw [h1.1]
    with_unfolding_all rfl
  · exact (c8_get_writer_behavior ⟨(3, 4), {0}, some c8SampleWriter⟩ "out"
      c8SampleHeader).2 c8SampleWriter rfl

lemma inBounds_planned {ts : ℚ} {inputs : List InputFile} (hts : 0 < ts)
    (hb : InBounds inputs) :
    ∀ j f, inputs[j]? = some f → ∀ p ∈ inputPoints f,
      j ∈ plannedSet ts (inputs.map (·.header)) (tileIndex ts p) := by
  intro j f hj p hp
  have hf : f ∈ inputs := List.getElem?_mem hj
  have hpb := hb f hf p hp
  have hr := inRectB_of_pointInBounds hts hpb
  rw [mem_plannedSet_iff]
  refine ⟨f.header, ?_, hr⟩
  rw [List.getElem?_map, hj]
  rfl

lemma count_ptsAt (ts : ℚ) (l : List Point) (t : ℤ × ℤ) (p : Point) :
    (ptsAt ts l t).count p = if tileIndex ts p = t then l.count p else 0 := by
  by_cases h : tileIndex ts p = t
  · rw [if_pos h, ptsAt, List.count_filter (by simp [h])]
  · rw [if_neg h, List.count_eq_zero]
    intro hc
    rw [ptsAt, List.mem_filter] at hc
    simp only [decide_eq_true_eq] at hc
    exact h hc.2

/-- C1 counterexample: with tile size `10`, the point `(-5, 3)` (inside its
input's header bounds) is written to the file of tile `(0, 0)` — the code
truncates `-5 / 10` toward zero — whereas the claimed floor-based index is
`(-1, 0)`, and no file for `(-1, 0)` exists. -/
theorem c1_floor_counterexample :
    (0 : ℚ) < 10 ∧ InBounds [c1CexInput] ∧
    processFrom 10 "out" 0 [c1CexInput] (startState 10 [c1CexInput]) = .ok
      ⟨[], [((0, 0), [⟨-5, 3, 0⟩])],
        [Event.opened (0, 0), Event.wrote (0, 0) 1, Event.closed (0, 0)]⟩ ∧
    tileIndex 10 ⟨-5, 3, 0⟩ = (0, 0) ∧
    specFloorTileIndex 10 ⟨-5, 3, 0⟩ = (-1, 0) ∧
    ((0, 0) : ℤ × ℤ) ≠ (-1, 0) := by
  refine ⟨by norm_num, by with_unfolding_all decide, by with_unfolding_all decide,
    by with_unfolding_all decide, ?_, by decide⟩
  rw [specFloorTileIndex, Prod.mk.injEq]
  constructor
  · show ⌊(Point.mk (-5) 3 0).x / 10⌋ = -1
    rw [Int.floor_eq_iff]
    norm_num
  · show ⌊(Point.mk (-5) 3 0).y / 10⌋ = 0
    rw [Int.floor_eq_iff]
    norm_num

/-- C1 (amended): for every point processed from any input and any
`tile_size > 0`, the point is written to exactly one output tile, and that
tile's index is obtained from `(x / tile_size, y / tile_size)` by Rust's
saturating `as i32` cast — truncation toward zero, which agrees with `floor`
for nonnegative quotients but not for negative ones; the assignment is
independent of batch boundaries and of the order in which inputs are
processed. Stated over the streaming phase for header-honest inputs: the
final files hold exactly the filter of all points by their code-computed tile
index (so each point occurrence is written once, to its own tile only), and
any re-batching of the same per-input point sequences yields identical
files. -/
theorem c1_point_assignment_amended (ts : ℚ) (outdir : String)
    (inputs : List InputFile) (hts : 0 < ts) (hb : InBounds inputs) :
    ∃ st, processFrom ts outdir 0 inputs (startState ts inputs) = .ok st ∧
      (∀ t, lookupA st.files t =
        if ptsAt ts (allPoints inputs) t = [] then none
        else some (ptsAt ts (allPoints inputs) t)) ∧
      (∀ t p, p ∈ fileContent st t → tileIndex ts p = t) ∧
      (∀ t p, (fileContent st t).count p =
        if tileIndex ts p = t then (allPoints inputs).count p else 0) ∧
      (∀ inputs2, inputs2.map (·.header) = inputs.map (·.header) →
        inputs2.map inputPoints = inputs.map inputPoints →
        ∃ st2, processFrom ts outdir 0 inputs2 (startState ts inputs2) = .ok st2 ∧
          ∀ t, lookupA st2.files t = lookupA st.files t) := by
  obtain ⟨st, hok, hinv⟩ := run_characterization outdir hts hb
  have hchar := hinv.filesChar
  have hfc : ∀ t, fileContent st t = ptsAt ts (allPoints inputs) t := by
    intro t
    rw [fileContent, hchar t]
    by_cases h : ptsAt ts (allPoints inputs) t = []
    · rw [if_pos h, h]
      rfl
    · rw [if_neg h]
      rfl
  refine ⟨st, hok, hchar, ?_, ?_, ?_⟩
  · intro t p hp
    rw [hfc t, ptsAt, List.mem_filter] at hp
    simpa using hp.2
  · intro t p
    rw [hfc t, count_ptsAt]
  · intro inputs2 hh hp
    have hb2 : InBounds inputs2 := by
      intro f2 hf2 p hp2
      obtain ⟨j, hjlt, rfl⟩ := List.mem_iff_getElem.mp hf2
      have hhj := congrArg (fun l => l[j]?) hh
      have hpj := congrArg (fun l => l[j]?) hp
      simp only [List.getElem?_map] at hhj hpj
      rw [List.getElem?_eq_getElem hjlt] at hhj hpj
      cases hj2 : inputs[j]? with
      | none =>
        rw [hj2] at hhj
        simp at hhj
      | some g =>
        rw [hj2] at hhj hpj
        simp only [Option.map_some'] at hhj hpj
        have hgh : inputs2[j].header = g.header := Option.some.inj hhj
        have hgp : inputPoints inputs2[j] = inputPoints g := Option.some.inj hpj
        rw [hgh]
        rw [hgp] at hp2
        exact hb g (List.getElem?_mem hj2) p hp2
    obtain ⟨st2, hok2, hinv2⟩ := run_characterization outdir hts hb2
    refine ⟨st2, hok2, ?_⟩
    intro t
    rw [hinv2.filesChar t, hchar t]
    have hall : allPoints inputs2 = allPoints inputs := by
      rw [allPoints, hp, allPoints]
    rw [hall]

/-- Witness for C1 at a two-batch input whose points land in tiles `(0,0)`
and `(1,0)`. -/
theorem c1_point_assignment_witness :
    (0 : ℚ) < 10 ∧ InBounds [c1WitnessInput] ∧
    ∃ st, processFrom 10 "out" 0 [c1WitnessInput] (startState 10 [c1WitnessInput])
      = .ok st ∧ ∀ t p, (fileContent st t).count p =
        if tileIndex 10 p = t then (allPoints [c1WitnessInput]).count p else 0 := by
  refine ⟨by norm_num, by with_unfolding_all decide, ?_⟩
  obtain ⟨st, hok, _, _, hcount, _⟩ := c1_point_assignment_amended 10 "out"
    [c1WitnessInput] (by norm_num) (by with_unfolding_all decide)
  exact ⟨st, hok, hcount⟩

/-- C2: for any `tile_size > 0` and any pairwise non-overlapping inputs that
the run processes to completion, the total number of points across all output
files equals the total number of points across all inputs — no point is lost
and none is duplicated. -/
theorem c2_conservation (ts : ℚ) (outdir : String) (inputs : List InputFile)
    (st : EngineState) (hts : 0 < ts)
    (hno : (inputs.map (·.header)).Pairwise
      (fun h1 h2 => bounds_intersect h1.bounds h2.bounds = false))
    (hok : runMain ts outdir inputs = .ok st) :
    filesTotal st = (inputs.map (fun f => (inputPoints f).length)).sum := by
  obtain ⟨h1, h2, hpf⟩ := runMain_ok_elim hok
  have htot := processFrom_CInv inputs 0 (startState_CInv ts inputs) hpf
  rw [htot]
  have hstart : filesTotal (startState ts inputs) = 0 := rfl
  rw [hstart, Nat.zero_add, List.length_flatten, List.map_map]
  rfl

/-- Witness for C2 at a single-input run with one point. -/
theorem c2_conservation_witness :
    (0 : ℚ) < 10 ∧
    (([sampleInput].map (·.header)).Pairwise
      (fun h1 h2 => bounds_intersect h1.bounds h2.bounds = false)) ∧
    runMain 10 "out" [sampleInput] = .ok sampleFinal ∧
    filesTotal sampleFinal = ([sampleInput].map (fun f => (inputPoints f).length)).sum := by
  refine ⟨by norm_num, by with_unfolding_all decide, by with_unfolding_all decide, ?_⟩
  exact c2_conservation 10 "out" [sampleInput] sampleFinal (by norm_num)
    (by with_unfolding_all decide) (by with_unfolding_all decide)

/-- C3: after the last input has been fully processed and retired, the
registry contains zero entries; consequently the final emptiness check
(`ensure!(output_files.is_empty())`) passes and — whenever the earlier
validation stages passed — the run returns success rather than aborting with
the invariant-violation error. -/
theorem c3_registry_empty_at_end (ts : ℚ) (outdir : String)
    (inputs : List InputFile) (st : EngineState)
    (hok : processFrom ts outdir 0 inputs (startState ts inputs) = .ok st) :
    st.registry = [] ∧
    (inputs.map (·.header) ≠ [] → overlappingPairs (inputs.map (·.header)) = [] →
      runMain ts outdir inputs = .ok st) := by
  have hempty : st.registry = [] := by
    apply processFrom_registry_empty inputs 0 hok
    have := startState_RegOK ts inputs
    simpa using this
  refine ⟨hempty, ?_⟩
  intro h1 h2
  rw [runMain, if_neg h1, if_pos h2, hok]
  show (if st.registry = [] then (Except.ok st : Except (RunError × EngineState) EngineState)
    else Except.error (RunError.registryNotEmpty, st)) = Except.ok st
  rw [if_pos hempty]

/-- Witness for C3 at the single-input sample run. -/
theorem c3_registry_empty_witness :
    processFrom 10 "out" 0 [sampleInput] (startState 10 [sampleInput]) = .ok sampleFinal ∧
    sampleFinal.registry = [] := by
  refine ⟨by with_unfolding_all decide, ?_⟩
  exact (c3_registry_empty_at_end 10 "out" [sampleInput] sampleFinal
    (by with_unfolding_all decide)).1

/-- C4 counterexample: in the two-input run `[c4InputA, c4InputB]`, after the
first input is consumed the registry still holds tile `(2, 2)`, whose
contributor set `{1}` does not contain input `0`; the retire pass for input
`0` is applied to that tile anyway (the `retain` closure visits every entry),
the absent-contributor removal is silently ignored — the entry is unchanged,
no `InternalInvariantViolation` is raised — and the whole run succeeds. -/
theorem c4_silent_removal_counterexample :
    processBatches 10 "out" c4InputA.header c4InputA.batches
      (startState 10 [c4InputA, c4InputB]) = .ok c4MidState ∧
    lookupA c4MidState.registry (2, 2) = some ⟨(2, 2), {1}, none⟩ ∧
    (0 : ℕ) ∉ ({1} : Finset ℕ) ∧
    lookupA (retire 0 c4MidState).registry (2, 2) = some ⟨(2, 2), {1}, none⟩ ∧
    runMain 10 "out" [c4InputA, c4InputB] = .ok c4FinalState :=
  ⟨by with_unfolding_all decide, by with_unfolding_all decide, by decide,
    by with_unfolding_all decide, by with_unfolding_all decide⟩

/-- C4 (amended): after an input is fully consumed, the engine applies the
contributor-removal to every tile still in the registry — not only the tiles
planned for that input; removing a contributor from a tile whose set does not
contain that input ID is silently ignored (the entry survives unchanged and
no error is raised), and exactly the tiles whose contributor set becomes
empty are closed and removed. -/
theorem c4_silent_removal_amended (i : ℕ) (st : EngineState) (t : ℤ × ℤ)
    (hnd : (keysA st.registry).Nodup) :
    (lookupA (retire i st).registry t =
      match lookupA st.registry t with
      | none => none
      | some tile =>
        if tile.input_files.erase i = ∅ then none
        else some { tile with input_files := tile.input_files.erase i }) ∧
    (∀ tile, lookupA st.registry t = some tile → i ∉ tile.input_files →
      tile.input_files ≠ ∅ → lookupA (retire i st).registry t = some tile) := by
  have hchar : lookupA (retire i st).registry t =
      match lookupA st.registry t with
      | none => none
      | some tile =>
        if tile.input_files.erase i = ∅ then none
        else some { tile with input_files := tile.input_files.erase i } := by
    rw [retire_registry]
    exact lookupA_retireAux i hnd t
  refine ⟨hchar, ?_⟩
  intro tile hlk hnotmem hne
  rw [hchar, hlk]
  simp only
  rw [Finset.erase_eq_of_not_mem hnotmem, if_neg hne]

/-- Witness for C4 at a concrete one-entry registry whose tile does not list
input `0` as a contributor. -/
theorem c4_silent_removal_witness :
    lookupA (retire 0 ⟨[((2, 2), ⟨(2, 2), {1}, none⟩)], [], []⟩).registry (2, 2)
      = some ⟨(2, 2), {1}, none⟩ :=
  (c4_silent_removal_amended 0 ⟨[((2, 2), ⟨(2, 2), {1}, none⟩)], [], []⟩ (2, 2)
    (by decide)).2 ⟨(2, 2), {1}, none⟩ (by decide) (by decide) (by decide)

/-- C6: if any two inputs' bounds intersect, the run fails with
`OverlappingInputs` carrying the complete list of conflicting index pairs —
the validator's reported list contains every conflicting pair, not only the
first found — and the failure state contains zero output files and an empty
event trace (validation happens before any output is created). -/
theorem c6_overlap_rejection (ts : ℚ) (outdir : String) (inputs : List InputFile)
    (i j : ℕ) (hi hj : Header) (hne : i ≠ j)
    (h1 : (inputs.map (·.header))[i]? = some hi)
    (h2 : (inputs.map (·.header))[j]? = some hj)
    (hint : bounds_intersect hi.bounds hj.bounds = true) :
    runMain ts outdir inputs =
      .error (.overlappingInputs (overlappingPairs (inputs.map (·.header))),
        ⟨[], [], []⟩) ∧
    (⟨[], [], []⟩ : EngineState).files = [] ∧
    (⟨[], [], []⟩ : EngineState).trace = [] ∧
    (∀ i2 j2, (i2, j2) ∈ overlappingPairs (inputs.map (·.header)) ↔
      i2 ≠ j2 ∧ ∃ hi2 hj2, (inputs.map (·.header))[i2]? = some hi2 ∧
        (inputs.map (·.header))[j2]? = some hj2 ∧
        bounds_intersect hi2.bounds hj2.bounds = true) := by
  have hnonnil : inputs.map (·.header) ≠ [] := by
    intro hc
    rw [hc] at h1
    simp at h1
  have hpairs : overlappingPairs (inputs.map (·.header)) ≠ [] := by
    intro hc
    have : (i, j) ∈ overlappingPairs (inputs.map (·.header)) :=
      mem_overlappingPairs_iff.mpr ⟨hne, hi, hj, h1, h2, hint⟩
    rw [hc] at this
    simp at this
  refine ⟨?_, rfl, rfl, fun i2 j2 => mem_overlappingPairs_iff⟩
  rw [runMain, if_neg hnonnil, if_neg hpairs]

/-- Witness for C6 at two concretely overlapping inputs. -/
theorem c6_overlap_rejection_witness :
    bounds_intersect c6InputA.header.bounds c6InputB.header.bounds = true ∧
    runMain 10 "out" [c6InputA, c6InputB] =
      .error (.overlappingInputs
        (overlappingPairs ([c6InputA, c6InputB].map (·.header))), ⟨[], [], []⟩) ∧
    overlappingPairs ([c6InputA, c6InputB].map (·.header)) = [(0, 1), (1, 0)] := by
  refine ⟨by with_unfolding_all decide, ?_, by with_unfolding_all decide⟩
  exact (c6_overlap_rejection 10 "out" [c6InputA, c6InputB] 0 1
    c6InputA.header c6InputB.header (by decide)
    (by with_unfolding_all decide) (by with_unfolding_all decide)
    (by with_unfolding_all decide)).1

/-- C9: during any run — successful or aborted — every output tile is opened
at most once and closed at most once, and no event for a tile (reopening or
writing included) ever follows its `closed` event; the single writer slot per
registry entry means at most one writer is open per tile at any time. -/
theorem c9_open_close_discipline (ts : ℚ) (outdir : String)
    (inputs : List InputFile) (t : ℤ × ℤ) :
    openCount t (finalState (runMain ts outdir inputs)).trace ≤ 1 ∧
    closeCount t (finalState (runMain ts outdir inputs)).trace ≤ 1 ∧
    ∀ u v, eventsFor t (finalState (runMain ts outdir inputs)).trace
      = u ++ Event.closed t :: v → v = [] :=
  Inv9_trace_props (runMain_Inv9 ts outdir inputs) t

/-- Witness for C9 at the sample run and tile `(0, 0)`, whose trace is
`[opened, wrote, closed]`. -/
theorem c9_open_close_witness :
    eventsFor (0, 0) (finalState (runMain 10 "out" [sampleInput])).trace
      = [Event.opened (0, 0), Event.wrote (0, 0) 1] ++ Event.closed (0, 0) :: [] ∧
    ([] : List Event) = [] :=
  ⟨by with_unfolding_all decide,
    (c9_open_close_discipline 10 "out" [sampleInput] (0, 0)).2.2
      [Event.opened (0, 0), Event.wrote (0, 0) 1] []
      (by with_unfolding_all decide)⟩

/-- C10: for header-honest inputs (every point inside its file's x/y bounds)
and positive tile size, every registry lookup in the dispatch loop succeeds:
the `context("tile should exist")` error branch is unreachable, because the
planning rectangle — computed with the same monotone coordinate-to-index
mapping — covers each point's tile with the current input among its planned
contributors, and a tile is not removed until all its planned contributors
have finished. -/
theorem c10_registry_lookup_succeeds (ts : ℚ) (outdir : String)
    (inputs : List InputFile) (hts : 0 < ts) (hb : InBounds inputs) :
    (∀ j f, inputs[j]? = some f → ∀ p ∈ inputPoints f,
      j ∈ plannedSet ts (inputs.map (·.header)) (tileIndex ts p)) ∧
    ∃ st, processFrom ts outdir 0 inputs (startState ts inputs) = .ok st := by
  refine ⟨inBounds_planned hts hb, ?_⟩
  obtain ⟨st, hok, _⟩ := run_characterization outdir hts hb
  exact ⟨st, hok⟩

/-- Witness for C10 at the sample run. -/
theorem c10_registry_lookup_witness :
    (0 : ℚ) < 10 ∧ InBounds [sampleInput] ∧
    ∃ st, processFrom 10 "out" 0 [sampleInput] (startState 10 [sampleInput]) = .ok st := by
  refine ⟨by norm_num, by with_unfolding_all decide, ?_⟩
  exact (c10_registry_lookup_succeeds 10 "out" [sampleInput] (by norm_num)
    (by with_unfolding_all decide)).2

end Lasretile
